import Mathlib

/-!
Verification of `src/cargo/flatpak-cargo-generator.py`.

Strings are modelled as lists of characters (`Str`).  The Python standard-library
functions the program calls (`urllib.parse.urlparse`, `urllib.parse.quote`,
`urllib.parse.parse_qs`, `json.dumps`, `toml.dumps`) are embedded at the level the
program depends on, following the CPython 3.11 sources, for inputs free of ASCII
control characters (the sanitisation pass of `urlsplit` that strips control
characters is the identity on such inputs and is not modelled).  `str.lower` is
modelled on the basic latin range, matching `Char.toLower`.
-/

abbrev Str := List Char

def str (s : String) : Str := s.toList

/-! ### Characters: facts about `Char.toLower`, used for `str.lower()` reasoning -/

theorem char_toNat_ofNat_valid (n : Nat) (h : n.isValidChar) : (Char.ofNat n).toNat = n := by
  rw [Char.ofNat, dif_pos h]; rfl

theorem toLower_toNat (c : Char) :
    (Char.toLower c).toNat = if 65 ≤ c.toNat ∧ c.toNat ≤ 90 then c.toNat + 32 else c.toNat := by
  unfold Char.toLower
  split
  · next h =>
    rw [if_pos (by omega)]
    exact char_toNat_ofNat_valid _ (Or.inl (by omega))
  · next h => rw [if_neg (by omega)]

theorem char_eq_of_toNat_eq {a b : Char} (h : a.toNat = b.toNat) : a = b := by
  have h2 := congrArg Char.ofNat h
  rwa [Char.ofNat_toNat, Char.ofNat_toNat] at h2

theorem toLower_eq_self_of_not_upper (c : Char) (h : ¬ (65 ≤ c.toNat ∧ c.toNat ≤ 90)) :
    Char.toLower c = c := by
  apply char_eq_of_toNat_eq
  rw [toLower_toNat, if_neg h]

theorem toLower_idem (c : Char) : Char.toLower (Char.toLower c) = Char.toLower c := by
  by_cases h : 65 ≤ c.toNat ∧ c.toNat ≤ 90
  · have h1 : (Char.toLower c).toNat = c.toNat + 32 := by rw [toLower_toNat, if_pos h]
    exact toLower_eq_self_of_not_upper _ (by omega)
  · rw [toLower_eq_self_of_not_upper c h]
    exact toLower_eq_self_of_not_upper c h

/-- For a character `d` that is not a basic latin letter, `toLower c = d` iff `c = d`. -/
theorem toLower_eq_iff (c d : Char) (hd : ¬ (97 ≤ d.toNat ∧ d.toNat ≤ 122))
    (hd2 : ¬ (65 ≤ d.toNat ∧ d.toNat ≤ 90)) :
    Char.toLower c = d ↔ c = d := by
  constructor
  · intro h
    have h2 := congrArg Char.toNat h
    rw [toLower_toNat] at h2
    by_cases hc : 65 ≤ c.toNat ∧ c.toNat ≤ 90
    · rw [if_pos hc] at h2; omega
    · rw [if_neg hc] at h2; exact char_eq_of_toNat_eq h2
  · intro h; rw [h]; exact toLower_eq_self_of_not_upper d hd2

/-! ### `urllib.parse.urlsplit` / `urlparse` (CPython 3.11) -/

/-- `scheme_chars` of `urllib.parse`: letters, digits, and `+-.`. -/
def isSchemeChar (c : Char) : Bool :=
  c.isAlphanum || c == '+' || c == '-' || c == '.'

/-- The scheme-recognition step of `urlsplit`: if the text up to the first `:` is a
non-empty run of scheme characters starting with a letter, it is the scheme
(lower-cased) and the rest follows the colon; otherwise there is no scheme. -/
def splitScheme (u : Str) : Str × Str :=
  if ':' ∈ u then
    if u.takeWhile (· != ':') ≠ [] ∧ ((u.takeWhile (· != ':')).headD ' ').isAlpha
        ∧ (u.takeWhile (· != ':')).all isSchemeChar then
      ((u.takeWhile (· != ':')).map Char.toLower, (u.dropWhile (· != ':')).tail)
    else ([], u)
  else ([], u)

/-- A character ending the netloc in `_splitnetloc`: one of `/?#`. -/
def notDelim (c : Char) : Bool := !(c == '/' || c == '?' || c == '#')

/-- The netloc step of `urlsplit`: if the remainder starts with `//`, the netloc is
everything up to the next `/`, `?` or `#`. -/
def splitNetloc (u : Str) : Str × Str :=
  if u.take 2 = str "//" then
    ((u.drop 2).takeWhile notDelim, (u.drop 2).dropWhile notDelim)
  else ([], u)

/-- `s.split(c, 1)` when `c ∈ s`, else `(s, "")`; used for the `#` and `?` splits. -/
def cutFirst (c : Char) (u : Str) : Str × Str :=
  if c ∈ u then (u.takeWhile (· != c), (u.dropWhile (· != c)).tail) else (u, [])

/-- `uses_params` of `urllib.parse` (CPython 3.11). -/
def uses_params : List Str :=
  [str "", str "ftp", str "hdl", str "prospero", str "http", str "imap", str "https",
   str "shttp", str "rtsp", str "rtsps", str "rtspu", str "sip", str "sips", str "mms",
   str "sftp", str "tel"]

/-- `_splitparams` guarded as in `urlparse`: params are split off only when the scheme
uses them and a `;` occurs (in the last path segment, when the path has a `/`). -/
def splitParams (scheme u : Str) : Str × Str :=
  if scheme ∈ uses_params ∧ ';' ∈ u then
    if '/' ∈ u then
      if ';' ∈ (u.reverse.takeWhile (· != '/')).reverse then
        (u.take (u.length - ((u.reverse.takeWhile (· != '/')).reverse).length)
           ++ ((u.reverse.takeWhile (· != '/')).reverse).takeWhile (· != ';'),
         (((u.reverse.takeWhile (· != '/')).reverse).dropWhile (· != ';')).tail)
      else (u, [])
    else (u.takeWhile (· != ';'), (u.dropWhile (· != ';')).tail)
  else (u, [])

/-- The six components of `urllib.parse.ParseResult`.  The program constructs results
with `params`/`query`/`fragment` set to Python `None` (modelled `none`); `urlparse`
itself always returns strings there (modelled `some`). -/
structure ParseResult where
  scheme : Str
  netloc : Str
  path : Str
  params : Option Str
  query : Option Str
  fragment : Option Str
deriving DecidableEq

/-- `urllib.parse.urlparse` with `allow_fragments=True`. -/
def urlparse (u : Str) : ParseResult :=
  let s1 := splitScheme u
  let s2 := splitNetloc s1.2
  let s3 := cutFirst '#' s2.2
  let s4 := cutFirst '?' s3.1
  let s5 := splitParams s1.1 s4.1
  ⟨s1.1, s2.1, s5.1, some s5.2, some s4.2, some s3.2⟩

/-- `uses_netloc` of `urllib.parse` (CPython 3.11). -/
def uses_netloc : List Str :=
  [str "", str "ftp", str "http", str "gopher", str "nntp", str "telnet", str "imap",
   str "wais", str "file", str "mms", str "https", str "shttp", str "snews",
   str "prospero", str "rtsp", str "rtsps", str "rtspu", str "rsync", str "svn",
   str "svn+ssh", str "sftp", str "nfs", str "git", str "git+ssh", str "ws", str "wss"]

/-- Python truthiness of an optional string (`None` and `""` are falsy). -/
def optNonEmpty : Option Str → Bool
  | some (_ :: _) => true
  | _ => false

/-- `ParseResult.geturl()`, i.e. `urlunparse` composed with `urlunsplit` (CPython 3.11). -/
def geturl (u : ParseResult) : Str :=
  let url := if optNonEmpty u.params then u.path ++ ';' :: u.params.getD [] else u.path
  let url :=
    if u.netloc ≠ [] ∨ (u.scheme ≠ [] ∧ u.scheme ∈ uses_netloc ∧ url.take 2 ≠ str "//") then
      '/' :: '/' :: (u.netloc ++ (if url ≠ [] ∧ url.take 1 ≠ str "/" then '/' :: url else url))
    else url
  let url := if u.scheme ≠ [] then u.scheme ++ ':' :: url else url
  let url := if optNonEmpty u.query then url ++ '?' :: u.query.getD [] else url
  if optNonEmpty u.fragment then url ++ '#' :: u.fragment.getD [] else url

/-- `ParseResult.hostname`: host part of the netloc (after the last `@`, inside
brackets or before a port colon), lower-cased except for a `%`-zone suffix; `None`
when empty. -/
def hostname (u : ParseResult) : Option Str :=
  let hostinfo := (u.netloc.reverse.takeWhile (· != '@')).reverse
  let h :=
    if '[' ∈ hostinfo then ((hostinfo.dropWhile (· != '[')).tail).takeWhile (· != ']')
    else hostinfo.takeWhile (· != ':')
  if h = [] then none
  else
    let pre := h.takeWhile (· != '%')
    some (pre.map Char.toLower ++ h.drop pre.length)

/-! ### `str.replace`, `str.rstrip` -/

/-- Helper for `str.replace` with a fixed pattern: with skip-counter `0`, scan for
the pattern `git+https://`; on a match emit `https://` and skip the remaining 11
matched characters (counted down structurally), continuing after them. -/
def replaceGitHttpsAux : Nat → Str → Str
  | _ + 1, [] => []
  | k + 1, _ :: rest => replaceGitHttpsAux k rest
  | 0, [] => []
  | 0, c :: rest =>
    if (str "git+https://").isPrefixOf (c :: rest) then
      str "https://" ++ replaceGitHttpsAux 11 rest
    else c :: replaceGitHttpsAux 0 rest

/-- Python `url.replace('git+https://', 'https://')`: replace all non-overlapping
occurrences, scanning left to right. -/
def replaceGitHttps (s : Str) : Str := replaceGitHttpsAux 0 s

/-- Like `replaceGitHttpsAux`, for `s.replace('.git', '')` (used by
`get_git_tarball` on the repo name). -/
def replaceDotGitAux : Nat → Str → Str
  | _ + 1, [] => []
  | k + 1, _ :: rest => replaceDotGitAux k rest
  | 0, [] => []
  | 0, c :: rest =>
    if (str ".git").isPrefixOf (c :: rest) then replaceDotGitAux 3 rest
    else c :: replaceDotGitAux 0 rest

/-- Python `s.replace('.git', '')`. -/
def replaceDotGit (s : Str) : Str := replaceDotGitAux 0 s

/-- Python `s.rstrip('/')`: drop every trailing `/`. -/
def rstripSlash (p : Str) : Str := (p.reverse.dropWhile (· == '/')).reverse

/-! ### `canonical_url` (the program's URL canonicaliser) -/

/-- Line `if u.netloc == 'github.com': force https, lower-case the path`. -/
def canonical_github (u : ParseResult) : ParseResult :=
  if u.netloc = str "github.com" then
    { u with scheme := str "https", path := u.path.map Char.toLower }
  else u

/-- Line `if u.path.endswith('.git'): strip it`. -/
def canonical_strip_git (u : ParseResult) : ParseResult :=
  if (str ".git").isSuffixOf u.path then { u with path := u.path.take (u.path.length - 4) }
  else u

/-- `canonical_url` of flatpak-cargo-generator.py: rewrite `git+https://` to
`https://`, parse, drop params/query/fragment, strip trailing `/` from the path,
for netloc `github.com` force the `https` scheme and lower-case the path, and
strip a trailing `.git` from the path. -/
def canonical_url (url : Str) : ParseResult :=
  canonical_strip_git (canonical_github
    ⟨(urlparse (replaceGitHttps url)).scheme, (urlparse (replaceGitHttps url)).netloc,
     rstripSlash (urlparse (replaceGitHttps url)).path, none, none, none⟩)

/-! model sanity checks -/

example : canonical_url (str "git+https://github.com/o/r?rev=a#c") =
    ⟨str "https", str "github.com", str "/o/r", none, none, none⟩ := by decide

example : canonical_url (str "https://GitHub.com/Org/Repo/") =
    ⟨str "https", str "GitHub.com", str "/Org/Repo", none, none, none⟩ := by decide

example : geturl (canonical_url (str "https://example.com/r.git.git")) =
    str "https://example.com/r.git" := by decide

example : urlparse (str "git+https://x.se/a/b?rev=c#f") =
    ⟨str "git+https", str "x.se", str "/a/b", some [], some (str "rev=c"), some (str "f")⟩ := by
  decide

example : hostname ⟨str "https", str "User@GitHub.com:443", str "/x", none, none, none⟩ =
    some (str "github.com") := by decide

/-! ### `urllib.parse.quote` (default `safe='/'`) -/

/-- UTF-8 encoding of one scalar value, as a list of byte values. -/
def utf8Bytes (c : Char) : List Nat :=
  let n := c.toNat
  if n < 128 then [n]
  else if n < 2048 then [192 + n / 64, 128 + n % 64]
  else if n < 65536 then [224 + n / 4096, 128 + (n / 64) % 64, 128 + n % 64]
  else [240 + n / 262144, 128 + (n / 4096) % 64, 128 + (n / 64) % 64, 128 + n % 64]

/-- Bytes `quote` leaves unescaped: ASCII letters, digits, `_.-~`, and the default
safe character `/`. -/
def isSafeByte (b : Nat) : Bool :=
  decide ((65 ≤ b ∧ b ≤ 90) ∨ (97 ≤ b ∧ b ≤ 122) ∨ (48 ≤ b ∧ b ≤ 57) ∨
    b = 95 ∨ b = 46 ∨ b = 45 ∨ b = 126 ∨ b = 47)

/-- Upper-case hexadecimal digit, as used by `quote`'s `%XX` escapes. -/
def hexUpper (n : Nat) : Char := if n < 10 then Char.ofNat (48 + n) else Char.ofNat (55 + n)

/-- `urllib.parse.quote(s)`: percent-encode every UTF-8 byte outside the safe set. -/
def urlquote (s : Str) : Str :=
  s.flatMap fun c => (utf8Bytes c).flatMap fun b =>
    if isSafeByte b then [Char.ofNat b] else ['%', hexUpper (b / 16), hexUpper (b % 16)]

/-! ### `json.dumps` for the `.cargo-checksum.json` payloads -/

/-- Lower-case hexadecimal digit, as used by `json.dumps`'s `\uXXXX` escapes. -/
def hexLower (n : Nat) : Char := if n < 10 then Char.ofNat (48 + n) else Char.ofNat (87 + n)

/-- A `\uXXXX` escape for a code unit. -/
def uEscape (n : Nat) : Str :=
  ['\\', 'u', hexLower (n / 4096 % 16), hexLower (n / 256 % 16), hexLower (n / 16 % 16),
   hexLower (n % 16)]

/-- `json.dumps` escaping of one character (`ensure_ascii=True`). -/
def jsonEscapeChar (c : Char) : Str :=
  if c = '"' then ['\\', '"']
  else if c = '\\' then ['\\', '\\']
  else if c.toNat = 8 then ['\\', 'b']
  else if c.toNat = 9 then ['\\', 't']
  else if c.toNat = 10 then ['\\', 'n']
  else if c.toNat = 12 then ['\\', 'f']
  else if c.toNat = 13 then ['\\', 'r']
  else if 32 ≤ c.toNat ∧ c.toNat ≤ 126 then [c]
  else if c.toNat < 65536 then uEscape c.toNat
  else uEscape (55296 + (c.toNat - 65536) / 1024) ++ uEscape (56320 + (c.toNat - 65536) % 1024)

/-- A JSON string literal. -/
def jsonString (s : Str) : Str := '"' :: s.flatMap jsonEscapeChar ++ ['"']

/-- `json.dumps({'package': package, 'files': {}})` with default separators. -/
def cargoChecksumJson (package : Option Str) : Str :=
  str "\x7b\"package\": " ++ (match package with | some c => jsonString c | none => str "null")
    ++ str ", \"files\": \x7b\x7d\x7d"

/-! ### `toml.dumps` for the cargo config payload -/

/-- A key the `toml` encoder leaves bare: a non-empty run of `[A-Za-z0-9_-]`. -/
def tomlBareKey (k : Str) : Bool :=
  !k.isEmpty && k.all fun c => c.isAlphanum || c == '_' || c == '-'

/-- A TOML string literal as produced by the `toml` package's `_dump_str`, modelled
for strings free of control characters. -/
def tomlStr (s : Str) : Str :=
  '"' :: (s.flatMap fun c => if c = '\\' then ['\\', '\\'] else if c = '"' then ['\\', '"'] else [c])
    ++ ['"']

/-- A TOML key: bare if possible, else quoted. -/
def tomlKey (k : Str) : Str := if tomlBareKey k then k else tomlStr k

/-- `toml.dumps({'source': m})` for a table of non-empty string-valued sub-tables, as
produced by the `toml` package: one `[source.<key>]` section per entry, key-value
lines, and one blank line between consecutive sections. -/
def toml_dumps_source (m : List (Str × List (Str × Str))) : Str :=
  List.intercalate (str "\n")
    (m.map fun s =>
      str "[source." ++ tomlKey s.1 ++ str "]\n"
        ++ (s.2.map fun kv => tomlKey kv.1 ++ str " = " ++ tomlStr kv.2 ++ str "\n").flatten)

/-! ### `urllib.parse.parse_qs` -/

/-- Value of a hexadecimal digit character, if it is one. -/
def hexDigitVal (c : Char) : Option Nat :=
  if 48 ≤ c.toNat ∧ c.toNat ≤ 57 then some (c.toNat - 48)
  else if 65 ≤ c.toNat ∧ c.toNat ≤ 70 then some (c.toNat - 55)
  else if 97 ≤ c.toNat ∧ c.toNat ≤ 102 then some (c.toNat - 87)
  else none

/-- `urllib.parse.unquote`: decode `%XX` escapes (modelled byte-for-byte, which
agrees with CPython on ASCII results; invalid escapes stay literal). -/
def pctDecode : Str → Str
  | '%' :: a :: b :: rest =>
    match hexDigitVal a, hexDigitVal b with
    | some x, some y => Char.ofNat (16 * x + y) :: pctDecode rest
    | _, _ => '%' :: pctDecode (a :: b :: rest)
  | c :: rest => c :: pctDecode rest
  | [] => []

/-- `unquote_plus` as used by `parse_qsl`: `+` to space, then percent-decode. -/
def unquotePlus (s : Str) : Str := pctDecode (s.map fun c => if c = '+' then ' ' else c)

/-- `urllib.parse.parse_qsl(qs)` with default arguments: split on `&`, skip empty
fields, skip fields without `=` and fields with an empty value. -/
def parse_qsl (qs : Str) : List (Str × Str) :=
  (if qs = [] then [] else List.splitOn '&' qs).filterMap fun nv =>
    if nv = [] then none
    else if '=' ∈ nv then
      let value := (nv.dropWhile (· != '=')).tail
      if value ≠ [] then some (unquotePlus (nv.takeWhile (· != '=')), unquotePlus value)
      else none
    else none

/-- `parse_qs(qs).get(key)`, flattened: the list of values bound to `key` (`[]` both
for an absent key and for a `None` result, matching Python truthiness). -/
def parse_qs_get (qs key : Str) : List Str :=
  (parse_qsl qs).filterMap fun kv => if kv.1 = key then some kv.2 else none

/-! model sanity checks -/

example : urlquote (cargoChecksumJson none) =
    str "%7B%22package%22%3A%20null%2C%20%22files%22%3A%20%7B%7D%7D" := by decide

example : parse_qs_get (str "rev=a&tag=b&rev=c") (str "rev") = [str "a", str "c"] := by decide

example : parse_qs_get (str "rev=&x=%41+b") (str "x") = [str "A b"] := by decide

/-! ### The program's data model -/

/-- One `[[package]]` entry of a `Cargo.lock` file, with the fields the program
reads.  `name` and `version` are mandatory (a `KeyError` on them is not modelled);
`source` and `checksum` may be absent. -/
structure Package where
  name : Str
  version : Str
  source : Option Str := none
  checksum : Option Str := none
deriving DecidableEq

/-- A parsed `Cargo.lock`: the `[[package]]` list and the optional legacy
`[metadata]` table (an insertion-ordered string map, modelled as an association
list with distinct keys). -/
structure CargoLock where
  package : List Package
  metadata : Option (List (Str × Str)) := none
deriving DecidableEq

/-- One generated source descriptor (a JSON object in the output manifest); absent
keys are `none`. -/
structure Source where
  type : Str
  url : Option Str := none
  archiveType : Option Str := none
  sha256 : Option Str := none
  commit : Option Str := none
  dest : Option Str := none
  destFilename : Option Str := none
  commands : Option (List Str) := none
deriving DecidableEq

/-- Python exceptions the program can raise on the modelled paths. -/
inductive PyError where
  | assertionError (msg : Str)
  | valueError (msg : Str)
  | keyError
  | attributeError
deriving DecidableEq

/-- External effects of resolving one VCS package: a network download (for the
tarball checksum) or materialising/reading a git repository (clone/fetch plus
`Cargo.toml` reads, in `get_git_cargo_packages`/`fetch_git_repo`). -/
inductive Event where
  | remoteSha256 (url : Str)
  | gitPackages (repoUrl commit : Str)
deriving DecidableEq

/-- Oracles for the program's two external information sources: the sha256 of a
remote file (`get_remote_sha256`) and the package-name → sub-path mapping found in
a repository at a commit (`get_git_cargo_packages`). -/
structure GitOracle where
  sha256 : Str → Str
  packages : Str → Str → List (Str × Str)

/-- Lookup in an insertion-ordered string map (Python `dict` access). -/
def lookupAssoc {α : Type} : List (Str × α) → Str → Option α
  | [], _ => none
  | (k', v) :: rest, k => if k' = k then some v else lookupAssoc rest k

/-- Python `dict` assignment: replace in place if the key exists, else append. -/
def setAssoc {α : Type} (m : List (Str × α)) (k : Str) (v : α) : List (Str × α) :=
  if m.any (fun p => p.1 == k) then m.map (fun p => if p.1 == k then (p.1, v) else p)
  else m ++ [(k, v)]

/-- Python `dict.update`: assign every pair in order. -/
def updateAssoc {α : Type} (m entries : List (Str × α)) : List (Str × α) :=
  entries.foldl (fun m p => setAssoc m p.1 p.2) m

/-! ### Constants of the program -/

def CRATES_IO : Str := str "https://static.crates.io/crates"
def CARGO_HOME : Str := str "cargo"
def CARGO_CRATES : Str := str "cargo/vendor"
def VENDORED_SOURCES : Str := str "vendored-sources"

/-! ### `get_git_tarball` -/

/-- The host dispatch of `get_git_tarball`, after the owner and repo segments have
been extracted (`repo` has a trailing `.git` removed, as `path[1].replace`). -/
def get_git_tarball_host (repo_url commit owner p1 : Str) (h? : Option Str) :
    Except PyError Str :=
  let repo := if (str ".git").isSuffixOf p1 then replaceDotGit p1 else p1
  match h? with
  | some h =>
    if h = str "github.com" then
      .ok (str "https://codeload." ++ h ++ '/' :: owner ++ '/' :: repo ++ str "/tar.gz/"
        ++ commit)
    else if (List.splitOn '.' h).headD [] = str "gitlab" then
      .ok (str "https://" ++ h ++ '/' :: owner ++ '/' :: repo
        ++ str "/repository/archive.tar.gz?ref=" ++ commit)
    else if h = str "bitbucket.org" then
      .ok (str "https://" ++ h ++ '/' :: owner ++ '/' :: repo ++ str "/get/" ++ commit
        ++ str ".tar.gz")
    else .error (.valueError (str "Don't know how to get tarball for " ++ repo_url))
  | none => .error .attributeError

/-- `get_git_tarball(repo_url, commit)`: derive the provider-specific tarball URL
from the canonicalised repository URL.  Failures: the two-segment path assertion
(here the match falling through), `AttributeError` when there is no hostname
(`None.split`), and the final `ValueError` for unknown providers. -/
def get_git_tarball (repo_url commit : Str) : Except PyError Str :=
  match (List.splitOn '/' (canonical_url repo_url).path).drop 1 with
  | [owner, p1] =>
    get_git_tarball_host repo_url commit owner p1 (hostname (canonical_url repo_url))
  | _ => .error (.assertionError [])

/-! ### `get_git_sources` -/

/-- The relocation step emitted for a package living at `subpath ≠ '.'` inside its
repository. -/
def reloc_source (name subpath : Str) : Source :=
  { type := str "shell",
    commands := some
      [str "mv " ++ CARGO_CRATES ++ '/' :: name ++ str " " ++ CARGO_CRATES ++ '/' :: name
         ++ str ".repo",
       str "mv " ++ CARGO_CRATES ++ '/' :: name ++ str ".repo/" ++ subpath ++ str " "
         ++ CARGO_CRATES ++ '/' :: name,
       str "rm -rf " ++ CARGO_CRATES ++ '/' :: name ++ str ".repo"] }

/-- The inline `.cargo-checksum.json` marker for a git package (null checksum). -/
def git_marker_source (name : Str) : Source :=
  { type := str "file",
    url := some (str "data:" ++ urlquote (cargoChecksumJson none)),
    dest := some (CARGO_CRATES ++ '/' :: name),
    destFilename := some (str ".cargo-checksum.json") }

/-- `get_git_sources(package, tarball)`: descriptors and the vendored-config entry
for one VCS-sourced package, together with the external events performed, in
order.  Python `assert` failures and the `KeyError` on an unknown package name are
returned as errors. -/
def get_git_sources (o : GitOracle) (package : Package) (tarball : Bool) :
    Except PyError (List Source × List (Str × List (Str × Str))) × List Event :=
  match package.source with
  | none => (.error .keyError, [])
  | some source =>
    let commit := (urlparse source).fragment.getD []
    if commit = [] then
      (.error (.assertionError (str "The commit needs to be indicated in the fragement part")),
       [])
    else
      let repo_url := geturl (canonical_url source)
      let q := (urlparse source).query.getD []
      let rev := parse_qs_get q (str "rev")
      let tag := parse_qs_get q (str "tag")
      let branch := parse_qs_get q (str "branch")
      let base : List (Str × Str) :=
        [(str "git", repo_url), (str "replace-with", VENDORED_SOURCES)]
      let entry : Except PyError (List (Str × Str)) :=
        if rev ≠ [] then
          if rev.length = 1 then .ok (base ++ [(str "rev", rev.headD [])])
          else .error (.assertionError [])
        else if tag ≠ [] then
          if tag.length = 1 then .ok (base ++ [(str "tag", tag.headD [])])
          else .error (.assertionError [])
        else if branch ≠ [] then
          if branch.length = 1 then .ok (base ++ [(str "branch", branch.headD [])])
          else .error (.assertionError [])
        else .ok base
      match entry with
      | .error e => (.error e, [])
      | .ok cargo_vendored_entry =>
        let primary : Except PyError (Source × List Event) :=
          if tarball then
            match get_git_tarball source commit with
            | .error e => .error e
            | .ok tarball_url =>
              .ok ({ type := str "archive", archiveType := some (str "tar-gzip"),
                     url := some tarball_url, sha256 := some (o.sha256 tarball_url),
                     dest := some (CARGO_CRATES ++ '/' :: package.name) },
                   [.remoteSha256 tarball_url])
          else
            .ok ({ type := str "git", url := some repo_url, commit := some commit,
                   dest := some (CARGO_CRATES ++ '/' :: package.name) }, [])
        match primary with
        | .error e => (.error e, [])
        | .ok (prim, ev1) =>
          let ev2 := ev1 ++ [Event.gitPackages repo_url commit]
          match lookupAssoc (o.packages repo_url commit) package.name with
          | none => (.error .keyError, ev2)
          | some pkg_subpath =>
            let git_sources := prim ::
              (if pkg_subpath ≠ str "." then [reloc_source package.name pkg_subpath] else [])
              ++ [git_marker_source package.name]
            (.ok (git_sources, [(repo_url, cargo_vendored_entry)]), ev2)

/-! ### `get_package_sources` -/

/-- The lockfile-metadata key `"checksum <name> <version> (<source>)"`. -/
def checksum_key (name version source : Str) : Str :=
  str "checksum " ++ name ++ str " " ++ version ++ str " (" ++ source ++ str ")"

/-- The registry crate archive descriptor. -/
def crate_source (name version checksum : Str) : Source :=
  { type := str "file",
    url := some ( CRATES_IO ++ '/' :: name ++ '/' :: name ++ '-' :: version ++ str ".crate"),
    sha256 := some checksum,
    dest := some CARGO_CRATES,
    destFilename := some (name ++ '-' :: version ++ str ".crate") }

/-- The inline `.cargo-checksum.json` marker for a registry package. -/
def crate_marker_source (name version checksum : Str) : Source :=
  { type := str "file",
    url := some (str "data:" ++ urlquote (cargoChecksumJson (some checksum))),
    dest := some (CARGO_CRATES ++ '/' :: name ++ '-' :: version),
    destFilename := some (str ".cargo-checksum.json") }

/-- The checksum for a registry entry, in the program's precedence order: the
lockfile `[metadata]` table under the checksum key first, then the package's
inline `checksum` field. -/
def resolved_checksum (cargo_lock : CargoLock) (package : Package) (source : Str) :
    Option Str :=
  match cargo_lock.metadata with
  | some metadata =>
    match lookupAssoc metadata (checksum_key package.name package.version source) with
    | some c => some c
    | none => package.checksum
  | none => package.checksum

/-- `get_package_sources(package, cargo_lock, git_tarballs)`: `.ok none` models the
warn-and-skip `return None` paths (missing source, missing checksum). -/
def get_package_sources (o : GitOracle) (package : Package) (cargo_lock : CargoLock)
    (git_tarballs : Bool) :
    Except PyError (Option (List Source × List (Str × List (Str × Str)))) × List Event :=
  match package.source with
  | none => (.ok none, [])
  | some source =>
    if (str "git+").isPrefixOf source then
      let r := get_git_sources o package git_tarballs
      (r.1.map some, r.2)
    else
      match resolved_checksum cargo_lock package source with
      | none => (.ok none, [])
      | some checksum =>
        (.ok (some
          ([crate_source package.name package.version checksum,
            crate_marker_source package.name package.version checksum],
           [(str "crates-io", [(str "replace-with", VENDORED_SOURCES)])])), [])

/-! ### `generate_sources` -/

/-- The initial vendored-sources map of `generate_sources`. -/
def vendored_init : List (Str × List (Str × Str)) :=
  [(VENDORED_SOURCES, [(str "directory", CARGO_CRATES)])]

/-- The trailing shell step extracting every fetched crate archive. -/
def extract_source : Source :=
  { type := str "shell", dest := some CARGO_CRATES,
    commands := some [str "for c in *.crate; do tar -xf $c; done"] }

/-- The trailing inline cargo configuration descriptor, embedding the serialised
redirect mapping. -/
def config_source (m : List (Str × List (Str × Str))) : Source :=
  { type := str "file",
    url := some (str "data:" ++ urlquote (toml_dumps_source m)),
    dest := some CARGO_HOME,
    destFilename := some (str "config") }

/-- One iteration of the gathering loop of `generate_sources`: a skipped package
leaves the state unchanged, a resolved one appends its descriptors and merges its
redirect entry, and an exception short-circuits. -/
def collect_step (o : GitOracle) (cargo_lock : CargoLock) (git_tarballs : Bool)
    (acc : Except PyError (List Source × List (Str × List (Str × Str))))
    (p : Package) : Except PyError (List Source × List (Str × List (Str × Str))) :=
  match acc with
  | .error e => .error e
  | .ok (srcs, vendored) =>
    match (get_package_sources o p cargo_lock git_tarballs).1 with
    | .error e => .error e
    | .ok none => .ok (srcs, vendored)
    | .ok (some (pkg_sources, entry)) =>
      .ok (srcs ++ pkg_sources, updateAssoc vendored entry)

/-- The gathering loop of `generate_sources`: per-package descriptor lists are
concatenated in lockfile order and the vendored-config entries merged (Python
`dict.update`), starting from the `vendored-sources` directory entry; the first
raised exception aborts the run. -/
def collect_sources (o : GitOracle) (cargo_lock : CargoLock) (git_tarballs : Bool) :
    Except PyError (List Source × List (Str × List (Str × Str))) :=
  cargo_lock.package.foldl (collect_step o cargo_lock git_tarballs)
    (.ok ([], vendored_init))

/-- `generate_sources(cargo_lock, git_tarballs)`: the collected descriptors followed
by the extraction step and the inline cargo config. -/
def generate_sources (o : GitOracle) (cargo_lock : CargoLock) (git_tarballs : Bool) :
    Except PyError (List Source) :=
  (collect_sources o cargo_lock git_tarballs).map
    (fun r => r.1 ++ [extract_source, config_source r.2])

/-! ### C4: missing commit fragment is fatal before any external effect -/

/-- C4: for every VCS-sourced lock entry whose source URI has an empty fragment (no
commit identifier), `get_git_sources` fails with the assertion error and performs no
external event (no network request, no VCS process) — for every oracle and either
download mode. -/
theorem C4_empty_fragment_fatal_before_network (o : GitOracle) (package : Package)
    (tarball : Bool) (source : Str) (hs : package.source = some source)
    (hf : (urlparse source).fragment = some []) :
    get_git_sources o package tarball =
      (.error (.assertionError (str "The commit needs to be indicated in the fragement part")),
       []) := by
  simp [get_git_sources, hs, hf]

/-- C4 witness: a git source with no `#fragment` at all. -/
theorem C4_empty_fragment_witness :
    get_git_sources ⟨fun _ => [], fun _ _ => []⟩
      ⟨str "foo", str "1.0", some (str "git+https://github.com/o/r"), none⟩ false =
      (.error (.assertionError (str "The commit needs to be indicated in the fragement part")),
       []) :=
  C4_empty_fragment_fatal_before_network ⟨fun _ => [], fun _ _ => []⟩
    ⟨str "foo", str "1.0", some (str "git+https://github.com/o/r"), none⟩ false
    (str "git+https://github.com/o/r") rfl (by decide)

/-! ### C5: rev and tag present simultaneously -/

/-- A VCS lock entry whose source carries both a `rev` and a `tag` selector. -/
def c5_package : Package :=
  ⟨str "foo", str "1.0", some (str "git+https://github.com/o/r?rev=a&tag=b#abc"), none⟩

/-- An oracle placing `foo` at the repository root. -/
def c5_oracle : GitOracle := ⟨fun _ => [], fun _ _ => [(str "foo", str ".")]⟩

/-- C5 counterexample: with both a `rev` and a `tag` selector present (each once),
resolution does NOT fail: it succeeds, the `rev` selector wins and the `tag` is
silently ignored, and a redirect entry is produced. -/
theorem C5_rev_and_tag_not_fatal :
    (get_git_sources c5_oracle c5_package false).1 =
      .ok ([⟨str "git", some (str "https://github.com/o/r"), none, none, some (str "abc"),
             some (str "cargo/vendor/foo"), none, none⟩,
            git_marker_source (str "foo")],
           [(str "https://github.com/o/r",
             [(str "git", str "https://github.com/o/r"),
              (str "replace-with", str "vendored-sources"),
              (str "rev", str "a")])]) := by
  rfl

/-- C5 as amended: resolution fails fatally exactly when the first selector the code
consults (`rev`, else `tag`, else `branch`) is repeated in the query string; a `tag`
alongside a single `rev` is ignored without error. -/
theorem C5_amended_repeated_selector_fatal (o : GitOracle) (package : Package)
    (tarball : Bool) (source : Str) (hs : package.source = some source)
    (hc : (urlparse source).fragment.getD [] ≠ []) :
    (2 ≤ (parse_qs_get ((urlparse source).query.getD []) (str "rev")).length →
       get_git_sources o package tarball = (.error (.assertionError []), [])) ∧
    (parse_qs_get ((urlparse source).query.getD []) (str "rev") = [] →
     2 ≤ (parse_qs_get ((urlparse source).query.getD []) (str "tag")).length →
       get_git_sources o package tarball = (.error (.assertionError []), [])) ∧
    (parse_qs_get ((urlparse source).query.getD []) (str "rev") = [] →
     parse_qs_get ((urlparse source).query.getD []) (str "tag") = [] →
     2 ≤ (parse_qs_get ((urlparse source).query.getD []) (str "branch")).length →
       get_git_sources o package tarball = (.error (.assertionError []), [])) := by
  refine ⟨fun h1 => ?_, fun h0 h1 => ?_, fun h0 h0t h1 => ?_⟩
  · have hne : parse_qs_get ((urlparse source).query.getD []) (str "rev") ≠ [] := by
      intro hh; rw [hh] at h1; simp at h1
    have hnl : ¬ ((parse_qs_get ((urlparse source).query.getD []) (str "rev")).length = 1) := by
      omega
    simp [get_git_sources, hs, hc, hne, hnl]
  · have hne : parse_qs_get ((urlparse source).query.getD []) (str "tag") ≠ [] := by
      intro hh; rw [hh] at h1; simp at h1
    have hnl : ¬ ((parse_qs_get ((urlparse source).query.getD []) (str "tag")).length = 1) := by
      omega
    simp [get_git_sources, hs, hc, h0, hne, hnl]
  · have hne : parse_qs_get ((urlparse source).query.getD []) (str "branch") ≠ [] := by
      intro hh; rw [hh] at h1; simp at h1
    have hnl : ¬ ((parse_qs_get ((urlparse source).query.getD []) (str "branch")).length = 1) := by
      omega
    simp [get_git_sources, hs, hc, h0, h0t, hne, hnl]

/-- C5 amended witness: a repeated `rev` selector aborts resolution. -/
theorem C5_amended_witness :
    get_git_sources c5_oracle
      ⟨str "foo", str "1.0", some (str "git+https://github.com/o/r?rev=a&rev=b#abc"), none⟩
      false = (.error (.assertionError []), []) :=
  (C5_amended_repeated_selector_fatal c5_oracle
    ⟨str "foo", str "1.0", some (str "git+https://github.com/o/r?rev=a&rev=b#abc"), none⟩
    false (str "git+https://github.com/o/r?rev=a&rev=b#abc") rfl (by decide)).1 (by decide)

/-! ### C6: registry entries with a known checksum -/

/-- C6: for every registry entry whose checksum resolves (metadata table first, then
inline field), the result is exactly two descriptors: the crate archive descriptor
with the `static.crates.io` URL and the lockfile checksum as `sha256`, then the
inline `.cargo-checksum.json` marker embedding that checksum percent-encoded — and
no external event (the checksum is never recomputed by downloading). -/
theorem C6_registry_two_descriptors (o : GitOracle) (package : Package)
    (cargo_lock : CargoLock) (git_tarballs : Bool) (source checksum : Str)
    (hs : package.source = some source)
    (hng : (str "git+").isPrefixOf source = false)
    (hc : resolved_checksum cargo_lock package source = some checksum) :
    get_package_sources o package cargo_lock git_tarballs =
      (.ok (some
        ([{ type := str "file",
            url := some (str "https://static.crates.io/crates/" ++ package.name ++ str "/"
              ++ package.name ++ str "-" ++ package.version ++ str ".crate"),
            sha256 := some checksum,
            dest := some (str "cargo/vendor"),
            destFilename := some (package.name ++ str "-" ++ package.version ++ str ".crate") },
          { type := str "file",
            url := some (str "data:" ++ urlquote (cargoChecksumJson (some checksum))),
            dest := some (str "cargo/vendor/" ++ package.name ++ str "-" ++ package.version),
            destFilename := some (str ".cargo-checksum.json") }],
         [(str "crates-io", [(str "replace-with", str "vendored-sources")])])), []) := by
  simp only [get_package_sources, hs, hng, hc, Bool.false_eq_true, if_false]
  simp [crate_source, crate_marker_source, CRATES_IO, CARGO_CRATES, VENDORED_SOURCES, str]

/-- C6 witness: a concrete registry entry with an inline checksum. -/
theorem C6_registry_witness :
    get_package_sources ⟨fun _ => [], fun _ _ => []⟩
      ⟨str "serde", str "1.0.0", some (str "registry+https://github.com/rust-lang/crates.io-index"),
       some (str "abc123")⟩
      ⟨[], none⟩ false =
      (.ok (some
        ([{ type := str "file",
            url := some (str "https://static.crates.io/crates/" ++ str "serde" ++ str "/"
              ++ str "serde" ++ str "-" ++ str "1.0.0" ++ str ".crate"),
            sha256 := some (str "abc123"),
            dest := some (str "cargo/vendor"),
            destFilename := some (str "serde" ++ str "-" ++ str "1.0.0" ++ str ".crate") },
          { type := str "file",
            url := some (str "data:" ++ urlquote (cargoChecksumJson (some (str "abc123")))),
            dest := some (str "cargo/vendor/" ++ str "serde" ++ str "-" ++ str "1.0.0"),
            destFilename := some (str ".cargo-checksum.json") }],
         [(str "crates-io", [(str "replace-with", str "vendored-sources")])])), []) :=
  C6_registry_two_descriptors ⟨fun _ => [], fun _ _ => []⟩
    ⟨str "serde", str "1.0.0", some (str "registry+https://github.com/rust-lang/crates.io-index"),
     some (str "abc123")⟩
    ⟨[], none⟩ false (str "registry+https://github.com/rust-lang/crates.io-index")
    (str "abc123") rfl (by rfl) (by rfl)

/-! ### C3: checksum precedence and silent skip for registry entries -/

/-- `get_package_sources` reads the lockfile only through its metadata table. -/
theorem get_package_sources_metadata_only (o : GitOracle) (p : Package) (t : Bool)
    (md : Option (List (Str × Str))) (ps1 ps2 : List Package) :
    get_package_sources o p ⟨ps1, md⟩ t = get_package_sources o p ⟨ps2, md⟩ t := rfl

/-- A package whose `get_package_sources` skips is the identity step of the
gathering fold. -/
theorem collect_step_skip (o : GitOracle) (lock : CargoLock) (t : Bool) (p : Package)
    (hp : (get_package_sources o p lock t).1 = .ok none)
    (acc : Except PyError (List Source × List (Str × List (Str × Str)))) :
    (match acc with
     | .error e => .error e
     | .ok (srcs, vendored) =>
       match (get_package_sources o p lock t).1 with
       | .error e => .error e
       | .ok none => .ok (srcs, vendored)
       | .ok (some (pkg_sources, entry)) =>
         .ok (srcs ++ pkg_sources, updateAssoc vendored entry)) = acc := by
  match acc with
  | .error e => rfl
  | .ok (srcs, vendored) => rw [hp]

/-- C3: for a registry entry (source present, no `git+` prefix) the checksum is
taken from the metadata table first, then from the inline field; with neither, the
entry resolves to nothing, no error is raised, no event is performed, and the
generated manifest is exactly the one of the lockfile without that entry. -/
theorem C3_checksum_precedence_and_skip (o : GitOracle) (package : Package)
    (cargo_lock : CargoLock) (git_tarballs : Bool) (source : Str)
    (hs : package.source = some source)
    (hng : (str "git+").isPrefixOf source = false) :
    (∀ c, cargo_lock.metadata.bind
        (fun md => lookupAssoc md (checksum_key package.name package.version source)) = some c →
      get_package_sources o package cargo_lock git_tarballs =
        (.ok (some
          ([crate_source package.name package.version c,
            crate_marker_source package.name package.version c],
           [(str "crates-io", [(str "replace-with", VENDORED_SOURCES)])])), [])) ∧
    (cargo_lock.metadata.bind
        (fun md => lookupAssoc md (checksum_key package.name package.version source)) = none →
     ∀ c, package.checksum = some c →
      get_package_sources o package cargo_lock git_tarballs =
        (.ok (some
          ([crate_source package.name package.version c,
            crate_marker_source package.name package.version c],
           [(str "crates-io", [(str "replace-with", VENDORED_SOURCES)])])), [])) ∧
    (cargo_lock.metadata.bind
        (fun md => lookupAssoc md (checksum_key package.name package.version source)) = none →
     package.checksum = none →
      get_package_sources o package cargo_lock git_tarballs = (.ok none, []) ∧
      ∀ ps1 ps2 : List Package,
        generate_sources o ⟨ps1 ++ package :: ps2, cargo_lock.metadata⟩ git_tarballs =
          generate_sources o ⟨ps1 ++ ps2, cargo_lock.metadata⟩ git_tarballs) := by
  have hres' :
      resolved_checksum cargo_lock package source =
        match cargo_lock.metadata.bind
          (fun md => lookupAssoc md (checksum_key package.name package.version source)) with
        | some c => some c
        | none => package.checksum := by
    unfold resolved_checksum
    cases hm : cargo_lock.metadata with
    | none => rfl
    | some md =>
      cases lookupAssoc md (checksum_key package.name package.version source) <;> rfl
  refine ⟨fun c hm => ?_, fun hm c hc => ?_, fun hm hc => ⟨?_, fun ps1 ps2 => ?_⟩⟩
  · rw [hm] at hres'
    simp [get_package_sources, hs, hng, hres']
  · rw [hm, hc] at hres'
    simp [get_package_sources, hs, hng, hres']
  · rw [hm, hc] at hres'
    simp [get_package_sources, hs, hng, hres']
  · have hskip : ∀ ps : List Package,
        (get_package_sources o package ⟨ps, cargo_lock.metadata⟩ git_tarballs).1 = .ok none := by
      intro ps
      have h1 : get_package_sources o package ⟨ps, cargo_lock.metadata⟩ git_tarballs =
          get_package_sources o package cargo_lock git_tarballs := by
        cases cargo_lock with
        | mk pk md => exact get_package_sources_metadata_only o package git_tarballs md ps pk
      rw [hm, hc] at hres'
      rw [h1]
      simp [get_package_sources, hs, hng, hres']
    unfold generate_sources
    congr 1
    unfold collect_sources
    simp only [List.foldl_append, List.foldl_cons]
    congr 1
    exact collect_step_skip o ⟨ps1 ++ package :: ps2, cargo_lock.metadata⟩ git_tarballs package
      (hskip _) _

/-- C3 witness: with both a metadata checksum and an inline checksum, the metadata
one wins. -/
theorem C3_precedence_witness :
    get_package_sources ⟨fun _ => [], fun _ _ => []⟩
      ⟨str "serde", str "1.0.0", some (str "registry+x"), some (str "inline")⟩
      ⟨[], some [(checksum_key (str "serde") (str "1.0.0") (str "registry+x"), str "meta")]⟩
      false =
      (.ok (some
        ([crate_source (str "serde") (str "1.0.0") (str "meta"),
          crate_marker_source (str "serde") (str "1.0.0") (str "meta")],
         [(str "crates-io", [(str "replace-with", VENDORED_SOURCES)])])), []) :=
  (C3_checksum_precedence_and_skip ⟨fun _ => [], fun _ _ => []⟩
    ⟨str "serde", str "1.0.0", some (str "registry+x"), some (str "inline")⟩
    ⟨[], some [(checksum_key (str "serde") (str "1.0.0") (str "registry+x"), str "meta")]⟩
    false (str "registry+x") rfl (by rfl)).1 (str "meta") (by rfl)

/-! ### C9: provider-specific tarball URL derivation -/

/-- C9: from a canonicalised repository URL whose path has exactly two segments and
whose hostname exists, `get_git_tarball` yields the codeload URL for `github.com`,
the archive endpoint for hosts whose first dot-separated label is `gitlab`, the
`get/<commit>.tar.gz` URL for `bitbucket.org`, and a fatal `ValueError` for every
other host. -/
theorem C9_tarball_url_by_provider (repo_url commit owner repo1 host : Str)
    (hp : (List.splitOn '/' (canonical_url repo_url).path).drop 1 = [owner, repo1])
    (hh : hostname (canonical_url repo_url) = some host) :
    get_git_tarball repo_url commit =
      (let repo := if (str ".git").isSuffixOf repo1 then replaceDotGit repo1 else repo1
       if host = str "github.com" then
         .ok (str "https://codeload." ++ host ++ '/' :: owner ++ '/' :: repo ++ str "/tar.gz/"
           ++ commit)
       else if (List.splitOn '.' host).headD [] = str "gitlab" then
         .ok (str "https://" ++ host ++ '/' :: owner ++ '/' :: repo
           ++ str "/repository/archive.tar.gz?ref=" ++ commit)
       else if host = str "bitbucket.org" then
         .ok (str "https://" ++ host ++ '/' :: owner ++ '/' :: repo ++ str "/get/" ++ commit
           ++ str ".tar.gz")
       else .error (.valueError (str "Don't know how to get tarball for " ++ repo_url))) := by
  unfold get_git_tarball
  rw [hp]
  show get_git_tarball_host repo_url commit owner repo1 (hostname (canonical_url repo_url)) = _
  rw [hh]
  rfl

/-- C9 witness: the github case at a concrete repository URL. -/
theorem C9_tarball_witness :
    get_git_tarball (str "https://github.com/Org/Repo") (str "abc") =
      (let repo := if (str ".git").isSuffixOf (str "repo") then replaceDotGit (str "repo")
                   else str "repo"
       if str "github.com" = str "github.com" then
         .ok (str "https://codeload." ++ str "github.com" ++ '/' :: str "org" ++ '/' :: repo
           ++ str "/tar.gz/" ++ str "abc")
       else if (List.splitOn '.' (str "github.com")).headD [] = str "gitlab" then
         .ok (str "https://" ++ str "github.com" ++ '/' :: str "org" ++ '/' :: repo
           ++ str "/repository/archive.tar.gz?ref=" ++ str "abc")
       else if str "github.com" = str "bitbucket.org" then
         .ok (str "https://" ++ str "github.com" ++ '/' :: str "org" ++ '/' :: repo
           ++ str "/get/" ++ str "abc" ++ str ".tar.gz")
       else .error (.valueError (str "Don't know how to get tarball for "
         ++ str "https://github.com/Org/Repo"))) :=
  C9_tarball_url_by_provider (str "https://github.com/Org/Repo") (str "abc") (str "org")
    (str "repo") (str "github.com") (by rfl) (by rfl)

/-! ### C7: relocation step ordering for non-root sub-paths -/

/-- C7: whenever `get_git_sources` returns a descriptor list for a package whose
discovered sub-path is not `.`, that list is exactly the primary fetch descriptor
(a git checkout or a tarball archive), then the shell relocation step, then the
inline checksum-marker descriptor. -/
theorem C7_reloc_between_fetch_and_marker (o : GitOracle) (package : Package)
    (tarball : Bool) (source sp : Str) (srcs : List Source)
    (ven : List (Str × List (Str × Str)))
    (hs : package.source = some source)
    (hr : (get_git_sources o package tarball).1 = .ok (srcs, ven))
    (hl : lookupAssoc
        (o.packages (geturl (canonical_url source)) ((urlparse source).fragment.getD []))
        package.name = some sp)
    (hsp : sp ≠ str ".") :
    ∃ prim : Source,
      srcs = [prim, reloc_source package.name sp, git_marker_source package.name] ∧
      (prim.type = str "git" ∨ prim.type = str "archive") := by
  unfold get_git_sources at hr
  rw [hs] at hr
  simp only [] at hr
  by_cases hc : (urlparse source).fragment.getD [] = []
  · rw [if_pos hc] at hr
    simp at hr
  · rw [if_neg hc] at hr
    split at hr
    · simp at hr
    · split at hr
      · simp at hr
      · next prim ev1 heq =>
        rw [hl] at hr
        simp only [] at hr
        rw [if_pos hsp] at hr
        simp only [List.cons_append, List.singleton_append, List.nil_append,
          Except.ok.injEq, Prod.mk.injEq] at hr
        refine ⟨prim, hr.1.symm, ?_⟩
        split at heq
        · split at heq
          · simp at heq
          · simp only [Except.ok.injEq, Prod.mk.injEq] at heq
            right
            rw [← heq.1]
        · simp only [Except.ok.injEq, Prod.mk.injEq] at heq
          left
          rw [← heq.1]

/-- C7 witness: a concrete package at sub-path `sub/dir` in live-checkout mode. -/
theorem C7_reloc_witness :
    ∃ prim : Source,
      [⟨str "git", some (str "https://github.com/o/r"), none, none, some (str "abc"),
        some (str "cargo/vendor/bar"), none, none⟩,
       reloc_source (str "bar") (str "sub/dir"), git_marker_source (str "bar")] =
        [prim, reloc_source (str "bar") (str "sub/dir"), git_marker_source (str "bar")] ∧
      (prim.type = str "git" ∨ prim.type = str "archive") :=
  C7_reloc_between_fetch_and_marker
    ⟨fun _ => [], fun _ _ => [(str "bar", str "sub/dir")]⟩
    ⟨str "bar", str "1.0", some (str "git+https://github.com/o/r#abc"), none⟩
    false (str "git+https://github.com/o/r#abc") (str "sub/dir")
    [⟨str "git", some (str "https://github.com/o/r"), none, none, some (str "abc"),
      some (str "cargo/vendor/bar"), none, none⟩,
     reloc_source (str "bar") (str "sub/dir"), git_marker_source (str "bar")]
    [(str "https://github.com/o/r",
      [(str "git", str "https://github.com/o/r"),
       (str "replace-with", str "vendored-sources")])]
    rfl (by rfl) (by rfl) (by decide)

/-! ### C8: the manifest always ends with the extraction step and the config file -/

/-- C8: whenever generation succeeds, the output is the collected per-package
descriptors followed by exactly two trailing entries: the shell step extracting
every crate archive in `cargo/vendor`, then the inline `cargo/config` descriptor
whose content is the serialised redirect mapping. -/
theorem C8_trailing_extract_and_config (o : GitOracle) (cargo_lock : CargoLock)
    (git_tarballs : Bool) (out : List Source)
    (h : generate_sources o cargo_lock git_tarballs = .ok out) :
    ∃ srcs m, collect_sources o cargo_lock git_tarballs = .ok (srcs, m) ∧
      out = srcs ++ [extract_source, config_source m] := by
  unfold generate_sources at h
  cases hc : collect_sources o cargo_lock git_tarballs with
  | error e => rw [hc] at h; simp [Except.map] at h
  | ok r =>
    rw [hc] at h
    simp only [Except.map, Except.ok.injEq] at h
    exact ⟨r.1, r.2, rfl, h.symm⟩

/-- C8 witness: the empty lockfile produces exactly the two trailing entries. -/
theorem C8_trailing_witness :
    ∃ srcs m, collect_sources ⟨fun _ => [], fun _ _ => []⟩ ⟨[], none⟩ false = .ok (srcs, m) ∧
      [extract_source, config_source vendored_init] =
        srcs ++ [extract_source, config_source m] :=
  C8_trailing_extract_and_config ⟨fun _ => [], fun _ _ => []⟩ ⟨[], none⟩ false
    [extract_source, config_source vendored_init] (by rfl)

/-! ### List helpers for reasoning about the split functions -/

theorem takeWhile_append_of_all {p : Char → Bool} {a : Str} (b : Str)
    (h : ∀ x ∈ a, p x = true) : (a ++ b).takeWhile p = a ++ b.takeWhile p := by
  induction a with
  | nil => rfl
  | cons c cs ih =>
    have hc : p c = true := h c (by simp)
    simp only [List.cons_append, List.takeWhile_cons, hc, if_true]
    rw [ih (fun x hx => h x (by simp [hx]))]

theorem dropWhile_append_of_all {p : Char → Bool} {a : Str} (b : Str)
    (h : ∀ x ∈ a, p x = true) : (a ++ b).dropWhile p = b.dropWhile p := by
  induction a with
  | nil => rfl
  | cons c cs ih =>
    have hc : p c = true := h c (by simp)
    simp only [List.cons_append, List.dropWhile_cons, hc, if_true]
    exact ih (fun x hx => h x (by simp [hx]))

theorem cutFirst_not_mem {c : Char} {u : Str} (h : c ∉ u) : cutFirst c u = (u, []) := by
  simp [cutFirst, h]

theorem dropWhile_map_toLower {p : Char → Bool}
    (hf : ∀ c, p (Char.toLower c) = p c) (y : Str) :
    (y.map Char.toLower).dropWhile p = (y.dropWhile p).map Char.toLower := by
  induction y with
  | nil => rfl
  | cons c cs ih =>
    simp only [List.map_cons, List.dropWhile_cons, hf c]
    by_cases hc : p c = true
    · simp only [hc, if_true]; exact ih
    · simp only [Bool.not_eq_true] at hc; simp [hc]

theorem map_toLower_idem (x : Str) :
    (x.map Char.toLower).map Char.toLower = x.map Char.toLower := by
  rw [List.map_map]
  exact List.map_congr_left (fun c _ => toLower_idem c)

/-- `rstrip('/')` absorbs appended slashes. -/
theorem rstripSlash_append_replicate (a : Str) (k : Nat) :
    rstripSlash (a ++ List.replicate k '/') = rstripSlash a := by
  unfold rstripSlash
  rw [List.reverse_append, List.reverse_replicate]
  rw [dropWhile_append_of_all a.reverse (fun x hx => by
    rw [List.eq_of_mem_replicate hx]; rfl)]

/-- `rstrip('/')` commutes with ASCII lower-casing. -/
theorem rstripSlash_map_toLower (x : Str) :
    (rstripSlash x).map Char.toLower = rstripSlash (x.map Char.toLower) := by
  unfold rstripSlash
  rw [← List.map_reverse, dropWhile_map_toLower, List.map_reverse]
  intro c
  by_cases hc : c = '/'
  · rw [hc]; rfl
  · have h1 : Char.toLower c ≠ '/' := fun hh =>
      hc ((toLower_eq_iff c '/' (by decide) (by decide)).mp hh)
    simp [h1, hc]

/-! ### `urlparse` and `canonical_url` on `https://github.com/...` URLs -/

/-- `urlparse` of a github URL whose tail is free of `#`, `?`, `;`. -/
theorem urlparse_github (rest : Str) (h1 : '#' ∉ rest) (h2 : '?' ∉ rest)
    (h3 : ';' ∉ rest) :
    urlparse (str "https://github.com/" ++ rest) =
      ⟨str "https", str "github.com", '/' :: rest, some [], some [], some []⟩ := by
  have hassoc : str "https://github.com/" ++ rest =
      str "https" ++ ':' :: (str "//github.com/" ++ rest) := rfl
  have e1 : splitScheme (str "https://github.com/" ++ rest) =
      (str "https", str "//github.com/" ++ rest) := by
    unfold splitScheme
    rw [if_pos (by rw [hassoc]; simp)]
    rw [hassoc, takeWhile_append_of_all _ (by decide),
      dropWhile_append_of_all _ (by decide)]
    simp only [List.takeWhile_cons, List.dropWhile_cons, bne_self_eq_false,
      Bool.false_eq_true, if_false, List.append_nil, List.tail_cons]
    rw [if_pos (by decide)]
    rfl
  have hassoc2 : str "//github.com/" ++ rest =
      str "//" ++ (str "github.com" ++ '/' :: rest) := rfl
  have e2 : splitNetloc (str "//github.com/" ++ rest) =
      (str "github.com", '/' :: rest) := by
    unfold splitNetloc
    rw [if_pos (by rw [hassoc2]; rfl)]
    have hdrop : (str "//github.com/" ++ rest).drop 2 = str "github.com" ++ '/' :: rest := rfl
    rw [hdrop, takeWhile_append_of_all _ (by decide),
      dropWhile_append_of_all _ (by decide)]
    simp [List.takeWhile_cons, List.dropWhile_cons, notDelim]
  have e3 : cutFirst '#' ('/' :: rest) = ('/' :: rest, []) :=
    cutFirst_not_mem (by simp [h1])
  have e4 : cutFirst '?' ('/' :: rest) = ('/' :: rest, []) :=
    cutFirst_not_mem (by simp [h2])
  have e5 : splitParams (str "https") ('/' :: rest) = ('/' :: rest, []) := by
    unfold splitParams
    rw [if_neg]
    intro hcon
    exact absurd hcon.2 (by simp [h3])
  unfold urlparse
  rw [e1]
  simp only []
  rw [e2]
  simp only []
  rw [e3]
  simp only []
  rw [e4]
  simp only []
  rw [e5]

/-- `canonical_url` of a github URL (no `git+https://` occurrence, tail free of
`#`, `?`, `;`): scheme `https`, netloc `github.com`, and the slash-stripped,
lower-cased, `.git`-stripped path. -/
theorem canonical_url_github (rest : Str) (h1 : '#' ∉ rest) (h2 : '?' ∉ rest)
    (h3 : ';' ∉ rest)
    (hrep : replaceGitHttps (str "https://github.com/" ++ rest) =
      str "https://github.com/" ++ rest) :
    canonical_url (str "https://github.com/" ++ rest) =
      (let p := (rstripSlash ('/' :: rest)).map Char.toLower
       if (str ".git").isSuffixOf p then
         ⟨str "https", str "github.com", p.take (p.length - 4), none, none, none⟩
       else ⟨str "https", str "github.com", p, none, none, none⟩) := by
  unfold canonical_url
  rw [hrep, urlparse_github rest h1 h2 h3]
  unfold canonical_github
  rw [if_pos rfl]
  unfold canonical_strip_git
  rfl

/-! ### C1: case- and slash-insensitivity of canonicalisation on github.com -/

/-- C1 counterexample: the test pair of the claim.  `urlparse` preserves the case
of the netloc, so `GitHub.com` does not match the `github.com` check: the two
canonical results differ (in netloc and in path). -/
theorem C1_host_case_not_insensitive :
    canonical_url (str "https://GitHub.com/Org/Repo/") ≠
      canonical_url (str "https://github.com/org/repo") := by
  decide

/-- C1 as amended: for sources whose host is spelled exactly `github.com` (lower
case), canonicalisation is insensitive to the capitalisation of the path and to
trailing slashes: `https://github.com/<p><slashes>` and
`https://github.com/<lower(p)><slashes'>` canonicalise identically, for every path
`p` free of `#`, `?`, `;` and of `git+https://` occurrences. -/
theorem C1_amended_github_path_case_slash (p : Str) (k1 k2 : Nat)
    (h1 : '#' ∉ p) (h2 : '?' ∉ p) (h3 : ';' ∉ p)
    (hrepA : replaceGitHttps (str "https://github.com/" ++ (p ++ List.replicate k1 '/')) =
      str "https://github.com/" ++ (p ++ List.replicate k1 '/'))
    (hrepB : replaceGitHttps
        (str "https://github.com/" ++ (p.map Char.toLower ++ List.replicate k2 '/')) =
      str "https://github.com/" ++ (p.map Char.toLower ++ List.replicate k2 '/')) :
    canonical_url (str "https://github.com/" ++ (p ++ List.replicate k1 '/')) =
      canonical_url (str "https://github.com/" ++ (p.map Char.toLower ++ List.replicate k2 '/')) := by
  have hsl : ('/' : Char) ∉ ['#', '?', ';'] := by decide
  have hmemA : ∀ c : Char, c ∈ ['#', '?', ';'] → c ∉ p ++ List.replicate k1 '/' := by
    intro c hc hmem
    rcases List.mem_append.mp hmem with hh | hh
    · fin_cases hc <;> [exact h1 hh; exact h2 hh; exact h3 hh]
    · rw [List.eq_of_mem_replicate hh] at hc; exact hsl hc
  have hlow : ∀ c : Char, c ∈ ['#', '?', ';'] → c ∉ p.map Char.toLower := by
    intro c hc hmem
    rcases List.mem_map.mp hmem with ⟨d, hd, hdc⟩
    have hceq : d = c := by
      fin_cases hc <;>
        exact (toLower_eq_iff d _ (by decide) (by decide)).mp hdc
    rw [hceq] at hd
    fin_cases hc <;> [exact h1 hd; exact h2 hd; exact h3 hd]
  have hmemB : ∀ c : Char, c ∈ ['#', '?', ';'] → c ∉ p.map Char.toLower ++ List.replicate k2 '/' := by
    intro c hc hmem
    rcases List.mem_append.mp hmem with hh | hh
    · exact hlow c hc hh
    · rw [List.eq_of_mem_replicate hh] at hc; exact hsl hc
  rw [canonical_url_github _ (hmemA '#' (by decide)) (hmemA '?' (by decide))
    (hmemA ';' (by decide)) hrepA]
  rw [canonical_url_github _ (hmemB '#' (by decide)) (hmemB '?' (by decide))
    (hmemB ';' (by decide)) hrepB]
  have hpath : (rstripSlash ('/' :: (p ++ List.replicate k1 '/'))).map Char.toLower =
      (rstripSlash ('/' :: (p.map Char.toLower ++ List.replicate k2 '/'))).map Char.toLower := by
    have ha : ('/' :: (p ++ List.replicate k1 '/')) = ('/' :: p) ++ List.replicate k1 '/' := by
      simp
    have hb : ('/' :: (p.map Char.toLower ++ List.replicate k2 '/')) =
        (('/' :: p).map Char.toLower) ++ List.replicate k2 '/' := by
      simp [List.map_cons]
    rw [ha, hb, rstripSlash_append_replicate, rstripSlash_append_replicate]
    calc (rstripSlash ('/' :: p)).map Char.toLower
        = rstripSlash (('/' :: p).map Char.toLower) := rstripSlash_map_toLower _
      _ = rstripSlash ((('/' :: p).map Char.toLower).map Char.toLower) := by
          rw [map_toLower_idem]
      _ = (rstripSlash (('/' :: p).map Char.toLower)).map Char.toLower :=
          (rstripSlash_map_toLower _).symm
  rw [hpath]

/-- C1 amended witness: the claim's test pair with the host spelled `github.com`. -/
theorem C1_amended_witness :
    canonical_url (str "https://github.com/" ++ (str "Org/Repo" ++ List.replicate 1 '/')) =
      canonical_url (str "https://github.com/"
        ++ ((str "Org/Repo").map Char.toLower ++ List.replicate 0 '/')) :=
  C1_amended_github_path_case_slash (str "Org/Repo") 1 0 (by decide) (by decide) (by decide)
    (by rfl) (by rfl)

/-! ### Prefix machinery for canonical-URL reasoning -/

/-- `Pfx a b`: `a` is a leading piece of `b`. -/
def Pfx (a b : Str) : Prop := ∃ t, b = a ++ t

theorem pfx_refl (a : Str) : Pfx a a := ⟨[], by simp⟩

theorem pfx_trans {a b c : Str} (h1 : Pfx a b) (h2 : Pfx b c) : Pfx a c := by
  obtain ⟨t1, rfl⟩ := h1
  obtain ⟨t2, rfl⟩ := h2
  exact ⟨t1 ++ t2, by simp⟩

theorem pfx_mem {a b : Str} {c : Char} (h : Pfx a b) (hm : c ∈ a) : c ∈ b := by
  obtain ⟨t, rfl⟩ := h
  exact List.mem_append.mpr (Or.inl hm)

theorem pfx_takeWhile (p : Char → Bool) (u : Str) : Pfx (u.takeWhile p) u :=
  ⟨u.dropWhile p, (List.takeWhile_append_dropWhile p u).symm⟩

theorem pfx_take (n : Nat) (u : Str) : Pfx (u.take n) u :=
  ⟨u.drop n, (List.take_append_drop n u).symm⟩

theorem pfx_head? {a b : Str} (h : Pfx a b) (ha : a ≠ []) : a.head? = b.head? := by
  obtain ⟨t, rfl⟩ := h
  match a, ha with
  | c :: rest, _ => rfl

/-- The last `/`-free segment is a suffix, and the `_splitparams` front piece is the
rest. -/
theorem lastSeg_decomp (u : Str) :
    u = u.take (u.length - ((u.reverse.takeWhile (· != '/')).reverse).length)
      ++ (u.reverse.takeWhile (· != '/')).reverse := by
  set seg := (u.reverse.takeWhile (· != '/')).reverse with hseg
  set ini := (u.reverse.dropWhile (· != '/')).reverse with hini
  have h2 : u = ini ++ seg := by
    rw [hseg, hini]
    conv_lhs => rw [← List.reverse_reverse u,
      ← List.takeWhile_append_dropWhile (· != '/') u.reverse, List.reverse_append]
  rw [h2, List.length_append, Nat.add_sub_cancel, List.take_left]

theorem pfx_splitParams_fst (scheme u : Str) : Pfx (splitParams scheme u).1 u := by
  unfold splitParams
  split
  · split
    · split
      · refine ⟨(((u.reverse.takeWhile (· != '/')).reverse).dropWhile (· != ';')), ?_⟩
        conv_lhs => rw [lastSeg_decomp u]
        rw [List.append_assoc]
        congr 1
        exact (List.takeWhile_append_dropWhile _ _).symm
      · exact pfx_refl u
    · exact pfx_takeWhile _ u
  · exact pfx_refl u

theorem pfx_cutFirst_fst (c : Char) (u : Str) : Pfx (cutFirst c u).1 u := by
  unfold cutFirst
  split
  · exact pfx_takeWhile _ u
  · exact pfx_refl u

theorem pfx_rstripSlash (u : Str) : Pfx (rstripSlash u) u := by
  refine ⟨(u.reverse.takeWhile (· == '/')).reverse, ?_⟩
  unfold rstripSlash
  conv_lhs => rw [← List.reverse_reverse u,
    ← List.takeWhile_append_dropWhile (· == '/') u.reverse, List.reverse_append]

/-- A scheme-less parse stays scheme-less: if `splitScheme` found no scheme, it
returns the input unchanged. -/
theorem splitScheme_of_fst_nil {u : Str} (h : (splitScheme u).1 = []) :
    splitScheme u = ([], u) := by
  unfold splitScheme at h ⊢
  split at h
  · next hmem =>
    split at h
    · next hcond =>
      exfalso
      rw [List.map_eq_nil_iff] at h
      exact hcond.1 h
    · next hcond =>
      rw [if_pos hmem, if_neg hcond]
  · next hcond => rw [if_neg hcond]

/-! ### `canonical_url` of a `git+` source is never the literal `vendored-sources` -/

/-- The first character of `replaceGitHttps (c :: s)` is `h` (a replacement
happened at the front) or `c`. -/
theorem replaceGitHttps_head (c : Char) (s : Str) :
    (replaceGitHttps (c :: s)).head? = some 'h' ∨
      (replaceGitHttps (c :: s)).head? = some c := by
  have hdef : replaceGitHttps (c :: s) =
      if (str "git+https://").isPrefixOf (c :: s) then
        str "https://" ++ replaceGitHttpsAux 11 s
      else c :: replaceGitHttpsAux 0 s := rfl
  rw [hdef]
  split
  · left; rfl
  · right; rfl

/-- `canonical_url` leaves the params, query and fragment fields `None`. -/
theorem canonical_url_opts (u : Str) :
    (canonical_url u).params = none ∧ (canonical_url u).query = none ∧
      (canonical_url u).fragment = none := by
  unfold canonical_url canonical_github canonical_strip_git
  split <;> split <;> simp

/-- The netloc of a canonical URL is the parsed netloc. -/
theorem canonical_url_netloc (u : Str) :
    (canonical_url u).netloc = (urlparse (replaceGitHttps u)).netloc := by
  unfold canonical_url canonical_github canonical_strip_git
  split <;> split <;> simp_all

/-- A canonical URL with empty scheme has the parsed scheme empty. -/
theorem canonical_url_scheme_nil {u : Str} (h : (canonical_url u).scheme = []) :
    (urlparse (replaceGitHttps u)).scheme = [] := by
  unfold canonical_url canonical_github canonical_strip_git at h
  split at h <;> split at h <;> simp_all [str]

/-- With empty scheme and netloc, the canonical path is a leading piece of the
rewritten input. -/
theorem canonical_url_path_pfx {u : Str} (hs : (canonical_url u).scheme = [])
    (hn : (canonical_url u).netloc = [])
    (hnn : ¬ (replaceGitHttps u).take 2 = str "//") :
    Pfx (canonical_url u).path (replaceGitHttps u) := by
  have hps : (urlparse (replaceGitHttps u)).scheme = [] := canonical_url_scheme_nil hs
  have hsplit : splitScheme (replaceGitHttps u) = ([], replaceGitHttps u) :=
    splitScheme_of_fst_nil (by
      unfold urlparse at hps
      exact hps)
  have hnet : splitNetloc (replaceGitHttps u) = ([], replaceGitHttps u) := by
    unfold splitNetloc
    rw [if_neg hnn]
  have hpath : Pfx (urlparse (replaceGitHttps u)).path (replaceGitHttps u) := by
    unfold urlparse
    rw [hsplit]
    simp only []
    rw [hnet]
    simp only []
    refine pfx_trans (pfx_splitParams_fst _ _) ?_
    refine pfx_trans (pfx_cutFirst_fst _ _) ?_
    exact pfx_cutFirst_fst _ _
  have hng : (urlparse (replaceGitHttps u)).netloc ≠ str "github.com" := by
    rw [← canonical_url_netloc, hn]
    decide
  unfold canonical_url canonical_github canonical_strip_git
  rw [if_neg hng]
  split
  · exact pfx_trans (pfx_trans (pfx_take _ _) (pfx_rstripSlash _)) hpath
  · exact pfx_trans (pfx_rstripSlash _) hpath

/-- `geturl` without params/query/fragment: the `urlunsplit` core. -/
theorem geturl_eq (u : ParseResult) (hp : u.params = none) (hq : u.query = none)
    (hf : u.fragment = none) :
    geturl u =
      (if u.scheme ≠ [] then
        u.scheme ++ ':' ::
          (if u.netloc ≠ [] ∨ (u.scheme ≠ [] ∧ u.scheme ∈ uses_netloc
              ∧ u.path.take 2 ≠ str "//") then
            '/' :: '/' :: (u.netloc
              ++ (if u.path ≠ [] ∧ u.path.take 1 ≠ str "/" then '/' :: u.path else u.path))
          else u.path)
      else
        (if u.netloc ≠ [] ∨ (u.scheme ≠ [] ∧ u.scheme ∈ uses_netloc
            ∧ u.path.take 2 ≠ str "//") then
          '/' :: '/' :: (u.netloc
            ++ (if u.path ≠ [] ∧ u.path.take 1 ≠ str "/" then '/' :: u.path else u.path))
        else u.path)) := by
  unfold geturl
  rw [hp, hq, hf]
  rfl

/-- A URL with a scheme renders with a colon in it. -/
theorem geturl_colon_mem (u : ParseResult) (hp : u.params = none) (hq : u.query = none)
    (hf : u.fragment = none) (hs : u.scheme ≠ []) : ':' ∈ geturl u := by
  rw [geturl_eq u hp hq hf, if_pos hs]
  exact List.mem_append.mpr (Or.inr (List.mem_cons_self _ _))

/-- A scheme-less URL with a netloc renders starting with `//`. -/
theorem geturl_netloc_head (u : ParseResult) (hp : u.params = none) (hq : u.query = none)
    (hf : u.fragment = none) (hs : u.scheme = []) (hn : u.netloc ≠ []) :
    (geturl u).head? = some '/' := by
  rw [geturl_eq u hp hq hf, if_neg (by simp [hs]), if_pos (Or.inl hn)]
  rfl

/-- A scheme-less, netloc-less URL renders as its bare path. -/
theorem geturl_nil_nil (u : ParseResult) (hp : u.params = none) (hq : u.query = none)
    (hf : u.fragment = none) (hs : u.scheme = []) (hn : u.netloc = []) :
    geturl u = u.path := by
  rw [geturl_eq u hp hq hf, if_neg (by simp [hs]), if_neg (by simp [hs, hn])]

theorem pfx_of_isPrefixOf : ∀ {a b : Str}, a.isPrefixOf b = true → Pfx a b
  | [], b, _ => ⟨b, rfl⟩
  | _ :: _, [], h => by simp [List.isPrefixOf] at h
  | c :: a', d :: b', h => by
    simp only [List.isPrefixOf, Bool.and_eq_true, beq_iff_eq] at h
    obtain ⟨t, ht⟩ := pfx_of_isPrefixOf h.2
    exact ⟨t, by rw [h.1, ht, List.cons_append]⟩

theorem head?_of_take_two {l : Str} {a b : Char} (h : l.take 2 = [a, b]) :
    l.head? = some a := by
  match l, h with
  | x :: y :: rest, h =>
    simp only [List.take, List.cons.injEq] at h
    rw [h.1]
    rfl

/-- The canonical URL of a `git+`-prefixed source never renders as the literal
`vendored-sources`, so a git redirect entry can never displace the vendored
directory entry. -/
theorem geturl_canonical_git_ne_vendored (src : Str)
    (h : (str "git+").isPrefixOf src = true) :
    geturl (canonical_url src) ≠ VENDORED_SOURCES := by
  obtain ⟨t0, ht0⟩ := pfx_of_isPrefixOf h
  obtain ⟨hp, hq, hf⟩ := canonical_url_opts src
  by_cases hs : (canonical_url src).scheme = []
  · by_cases hn : (canonical_url src).netloc = []
    · -- bare path case: the path is a leading piece of the rewritten source
      have hsrc : src = 'g' :: (str "it+" ++ t0) := by rw [ht0]; rfl
      have hhead := replaceGitHttps_head 'g' (str "it+" ++ t0)
      rw [← hsrc] at hhead
      have hnn : ¬ (replaceGitHttps src).take 2 = str "//" := by
        intro hh
        have := head?_of_take_two hh
        rcases hhead with h1 | h1 <;> rw [h1] at this <;> exact absurd this (by decide)
      have hpfx : Pfx (canonical_url src).path (replaceGitHttps src) :=
        canonical_url_path_pfx hs hn hnn
      rw [geturl_nil_nil _ hp hq hf hs hn]
      by_cases hnil : (canonical_url src).path = []
      · rw [hnil]; decide
      · intro hcon
        have hh := pfx_head? hpfx hnil
        rw [hcon] at hh
        rcases hhead with h1 | h1 <;> rw [h1] at hh <;> exact absurd hh (by decide)
    · intro hcon
      have := geturl_netloc_head _ hp hq hf hs hn
      rw [hcon] at this
      exact absurd this (by decide)
  · intro hcon
    have := geturl_colon_mem _ hp hq hf hs
    rw [hcon] at this
    exact absurd this (by decide)

/-! ### C10: the vendored-sources directory entry survives every merge -/

theorem lookupAssoc_map_set {α : Type} (m : List (Str × α)) (k k' : Str) (v : α)
    (h : k ≠ k') :
    lookupAssoc (m.map (fun p => if p.1 == k then (p.1, v) else p)) k' =
      lookupAssoc m k' := by
  induction m with
  | nil => rfl
  | cons p rest ih =>
    obtain ⟨a, b⟩ := p
    simp only [List.map_cons]
    by_cases hpk : (a == k) = true
    · have hp1 : ¬ a = k' := by rw [beq_iff_eq.mp hpk]; exact h
      rw [if_pos hpk]
      simp only [lookupAssoc]
      rw [if_neg hp1, if_neg hp1]
      exact ih
    · rw [if_neg hpk]
      simp only [lookupAssoc]
      split
      · rfl
      · exact ih

theorem lookupAssoc_append_single {α : Type} (m : List (Str × α)) (k k' : Str) (v : α)
    (h : k ≠ k') : lookupAssoc (m ++ [(k, v)]) k' = lookupAssoc m k' := by
  induction m with
  | nil =>
    simp only [List.nil_append, lookupAssoc]
    rw [if_neg h]
  | cons p rest ih =>
    obtain ⟨a, b⟩ := p
    simp only [List.cons_append, lookupAssoc]
    split
    · rfl
    · exact ih

theorem lookupAssoc_setAssoc_ne {α : Type} (m : List (Str × α)) (k k' : Str) (v : α)
    (h : k ≠ k') : lookupAssoc (setAssoc m k v) k' = lookupAssoc m k' := by
  unfold setAssoc
  split
  · exact lookupAssoc_map_set m k k' v h
  · exact lookupAssoc_append_single m k k' v h

theorem lookupAssoc_updateAssoc_ne {α : Type} (m entries : List (Str × α)) (k' : Str)
    (h : ∀ kv ∈ entries, kv.1 ≠ k') :
    lookupAssoc (updateAssoc m entries) k' = lookupAssoc m k' := by
  induction entries generalizing m with
  | nil => rfl
  | cons kv rest ih =>
    unfold updateAssoc
    simp only [List.foldl_cons]
    have step : lookupAssoc (setAssoc m kv.1 kv.2) k' = lookupAssoc m k' :=
      lookupAssoc_setAssoc_ne m kv.1 k' kv.2 (h kv (by simp))
    have ihs := ih (setAssoc m kv.1 kv.2) (fun x hx => h x (by simp [hx]))
    unfold updateAssoc at ihs
    rw [ihs, step]

/-- The redirect entry produced for one package never binds the
`vendored-sources` key. -/
theorem get_package_sources_entry_keys (o : GitOracle) (p : Package)
    (cargo_lock : CargoLock) (t : Bool) (s : List Source)
    (e : List (Str × List (Str × Str)))
    (h : (get_package_sources o p cargo_lock t).1 = .ok (some (s, e))) :
    ∀ kv ∈ e, kv.1 ≠ VENDORED_SOURCES := by
  unfold get_package_sources at h
  split at h
  · simp at h
  · next source hsrc =>
    split at h
    · next hgit =>
      -- git path: the single entry key is the canonical repo URL
      unfold get_git_sources at h
      rw [hsrc] at h
      simp only [] at h
      split at h
      · simp [Except.map] at h
      · split at h
        · simp [Except.map] at h
        · split at h
          · simp [Except.map] at h
          · split at h
            · simp [Except.map] at h
            · simp only [Except.map, Except.ok.injEq, Option.some.injEq,
                Prod.mk.injEq] at h
              intro kv hkv
              rw [← h.2] at hkv
              simp only [List.mem_singleton] at hkv
              rw [hkv]
              exact geturl_canonical_git_ne_vendored source hgit
    · split at h
      · simp at h
      · simp only [Except.ok.injEq, Option.some.injEq, Prod.mk.injEq] at h
        intro kv hkv
        rw [← h.2] at hkv
        simp only [List.mem_singleton] at hkv
        rw [hkv]
        decide

/-- The gathering fold on an error accumulator stays an error. -/
theorem collect_fold_error (o : GitOracle) (cargo_lock : CargoLock) (t : Bool)
    (ps : List Package) (err : PyError) :
    ps.foldl (collect_step o cargo_lock t) (.error err) = .error err := by
  induction ps with
  | nil => rfl
  | cons p rest ih => exact ih

/-- Along the gathering fold, the `vendored-sources` binding of the redirect map is
never changed. -/
theorem collect_fold_vendored (o : GitOracle) (cargo_lock : CargoLock) (t : Bool)
    (ps : List Package) :
    ∀ (acc : Except PyError (List Source × List (Str × List (Str × Str))))
      (srcs : List Source) (m : List (Str × List (Str × Str))),
      (∀ s0 m0, acc = .ok (s0, m0) →
        lookupAssoc m0 VENDORED_SOURCES = some [(str "directory", str "cargo/vendor")]) →
      ps.foldl (collect_step o cargo_lock t) acc = .ok (srcs, m) →
      lookupAssoc m VENDORED_SOURCES = some [(str "directory", str "cargo/vendor")] := by
  induction ps with
  | nil =>
    intro acc srcs m hinv hfold
    exact hinv srcs m hfold
  | cons p rest ih =>
    intro acc srcs m hinv hfold
    simp only [List.foldl_cons] at hfold
    match hacc : acc with
    | .error e =>
      rw [show collect_step o cargo_lock t (.error e) p = .error e from rfl] at hfold
      rw [collect_fold_error] at hfold
      exact absurd hfold (by simp)
    | .ok (s0, m0) =>
      have hm0 := hinv s0 m0 rfl
      refine ih _ srcs m ?_ hfold
      intro s1 m1 hstep
      have hsdef : collect_step o cargo_lock t (.ok (s0, m0)) p =
          match (get_package_sources o p cargo_lock t).1 with
          | .error e => .error e
          | .ok none => .ok (s0, m0)
          | .ok (some (pkg_sources, entry)) =>
            .ok (s0 ++ pkg_sources, updateAssoc m0 entry) := rfl
      rw [hsdef] at hstep
      match hres : (get_package_sources o p cargo_lock t).1 with
      | .error e =>
        rw [hres] at hstep
        simp at hstep
      | .ok none =>
        rw [hres] at hstep
        simp only [Except.ok.injEq, Prod.mk.injEq] at hstep
        rw [← hstep.2]
        exact hm0
      | .ok (some (pkg_sources, entry)) =>
        rw [hres] at hstep
        simp only [Except.ok.injEq, Prod.mk.injEq] at hstep
        rw [← hstep.2]
        rw [lookupAssoc_updateAssoc_ne m0 entry VENDORED_SOURCES
          (get_package_sources_entry_keys o p cargo_lock t pkg_sources entry hres)]
        exact hm0

/-- C10: whenever generation succeeds, the redirect mapping serialised into the
final configuration artifact binds `vendored-sources` to the `cargo/vendor`
directory entry: the binding is installed unconditionally before the merge and no
per-package entry can displace it. -/
theorem C10_vendored_sources_binding (o : GitOracle) (cargo_lock : CargoLock)
    (git_tarballs : Bool) (out : List Source)
    (h : generate_sources o cargo_lock git_tarballs = .ok out) :
    ∃ srcs m, collect_sources o cargo_lock git_tarballs = .ok (srcs, m) ∧
      out.getLast? = some (config_source m) ∧
      lookupAssoc m VENDORED_SOURCES = some [(str "directory", str "cargo/vendor")] := by
  unfold generate_sources at h
  match hc : collect_sources o cargo_lock git_tarballs with
  | .error e =>
    rw [hc] at h
    simp [Except.map] at h
  | .ok (srcs, m) =>
    rw [hc] at h
    simp only [Except.map, Except.ok.injEq] at h
    refine ⟨srcs, m, rfl, ?_, ?_⟩
    · rw [← h]
      have : srcs ++ [extract_source, config_source m]
          = (srcs ++ [extract_source]) ++ [config_source m] := by simp
      rw [this, List.getLast?_concat]
    · unfold collect_sources at hc
      refine collect_fold_vendored o cargo_lock git_tarballs cargo_lock.package _ srcs m
        ?_ hc
      intro s0 m0 hinit
      simp only [Except.ok.injEq, Prod.mk.injEq] at hinit
      rw [← hinit.2]
      rfl

/-- C10 witness: the empty lockfile. -/
theorem C10_vendored_sources_witness :
    ∃ srcs m, collect_sources ⟨fun _ => [], fun _ _ => []⟩ ⟨[], none⟩ false = .ok (srcs, m) ∧
      [extract_source, config_source vendored_init].getLast? = some (config_source m) ∧
      lookupAssoc m VENDORED_SOURCES = some [(str "directory", str "cargo/vendor")] :=
  C10_vendored_sources_binding ⟨fun _ => [], fun _ _ => []⟩ ⟨[], none⟩ false
    [extract_source, config_source vendored_init] (by rfl)

/-! ### C2: idempotence machinery — parse/unparse round trip -/

/-- A string that `urlsplit` accepts as a scheme and that is already lower-case. -/
def goodScheme (s : Str) : Prop :=
  s ≠ [] ∧ (s.headD ' ').isAlpha = true ∧ s.all isSchemeChar = true ∧
    s.map Char.toLower = s

theorem isUpper_iff (c : Char) : c.isUpper = true ↔ 65 ≤ c.toNat ∧ c.toNat ≤ 90 := by
  simp [Char.isUpper, Char.toNat, UInt32.le_def, BitVec.le_def, UInt32.toNat]

theorem isLower_iff (c : Char) : c.isLower = true ↔ 97 ≤ c.toNat ∧ c.toNat ≤ 122 := by
  simp [Char.isLower, Char.toNat, UInt32.le_def, BitVec.le_def, UInt32.toNat]

theorem isDigit_iff (c : Char) : c.isDigit = true ↔ 48 ≤ c.toNat ∧ c.toNat ≤ 57 := by
  simp [Char.isDigit, Char.toNat, UInt32.le_def, BitVec.le_def, UInt32.toNat]

theorem isAlpha_iff (c : Char) : c.isAlpha = true ↔
    (65 ≤ c.toNat ∧ c.toNat ≤ 90) ∨ (97 ≤ c.toNat ∧ c.toNat ≤ 122) := by
  simp [Char.isAlpha, isUpper_iff, isLower_iff]

theorem char_eq_iff_toNat (c d : Char) : c = d ↔ c.toNat = d.toNat :=
  ⟨fun h => by rw [h], char_eq_of_toNat_eq⟩

theorem toLower_isAlpha (c : Char) (h : c.isAlpha = true) :
    (Char.toLower c).isAlpha = true := by
  rw [isAlpha_iff] at h ⊢
  rw [toLower_toNat]
  split <;> omega

theorem isSchemeChar_iff (c : Char) : isSchemeChar c = true ↔
    (65 ≤ c.toNat ∧ c.toNat ≤ 90) ∨ (97 ≤ c.toNat ∧ c.toNat ≤ 122) ∨
    (48 ≤ c.toNat ∧ c.toNat ≤ 57) ∨ c.toNat = 43 ∨ c.toNat = 45 ∨ c.toNat = 46 := by
  have h43 : c = '+' ↔ c.toNat = 43 := (char_eq_iff_toNat c '+')
  have h45 : c = '-' ↔ c.toNat = 45 := (char_eq_iff_toNat c '-')
  have h46 : c = '.' ↔ c.toNat = 46 := (char_eq_iff_toNat c '.')
  simp only [isSchemeChar, Char.isAlphanum, Char.isAlpha, Bool.or_eq_true, beq_iff_eq,
    isUpper_iff, isLower_iff, isDigit_iff, h43, h45, h46]
  tauto

theorem toLower_isSchemeChar (c : Char) (h : isSchemeChar c = true) :
    isSchemeChar (Char.toLower c) = true := by
  rw [isSchemeChar_iff] at h ⊢
  rw [toLower_toNat]
  split <;> omega

/-- Any scheme produced by `splitScheme` is empty or a good (lower-case) scheme. -/
theorem splitScheme_good (t : Str) :
    (splitScheme t).1 = [] ∨ goodScheme (splitScheme t).1 := by
  unfold splitScheme
  split
  · split
    · next hcond =>
      right
      obtain ⟨hne, halpha, hall⟩ := hcond
      refine ⟨by simpa using hne, ?_, ?_, map_toLower_idem _⟩
      · match hp : t.takeWhile (· != ':') with
        | [] => exact absurd hp hne
        | c :: rest =>
          rw [hp] at halpha
          simp only [hp, List.map_cons, List.headD_cons]
          exact toLower_isAlpha c (by simpa using halpha)
      · simp only [List.all_eq_true] at hall ⊢
        intro x hx
        simp only [List.mem_map] at hx
        obtain ⟨y, hy, rfl⟩ := hx
        exact toLower_isSchemeChar y (hall y hy)
    · left; rfl
  · left; rfl

/-- Characters of a good scheme are never `:`. -/
theorem goodScheme_no_colon {s : Str} (h : goodScheme s) : ∀ c ∈ s, (c != ':') = true := by
  intro c hc
  have := (List.all_eq_true.mp h.2.2.1) c hc
  rw [isSchemeChar_iff] at this
  simp only [bne_iff_ne, ne_eq]
  intro hcc
  rw [hcc] at this
  revert this
  decide

/-- `splitScheme` recovers a good scheme in front of a colon. -/
theorem splitScheme_good_colon (s rest : Str) (hg : goodScheme s) :
    splitScheme (s ++ ':' :: rest) = (s, rest) := by
  have hmem : ':' ∈ s ++ ':' :: rest := List.mem_append.mpr (Or.inr (by simp))
  have htw : (s ++ ':' :: rest).takeWhile (· != ':') = s := by
    rw [takeWhile_append_of_all _ (goodScheme_no_colon hg)]
    simp [List.takeWhile_cons]
  have hdw : (s ++ ':' :: rest).dropWhile (· != ':') = ':' :: rest := by
    rw [dropWhile_append_of_all _ (goodScheme_no_colon hg)]
    simp [List.dropWhile_cons]
  unfold splitScheme
  rw [if_pos hmem, htw, hdw]
  rw [if_pos ⟨hg.1, hg.2.1, hg.2.2.1⟩]
  simp [hg.2.2.2]

/-- `splitScheme` finds nothing on a string starting with `/`. -/
theorem splitScheme_of_head_slash (x : Str) (hx : x.head? = some '/') :
    splitScheme x = ([], x) := by
  match x with
  | [] => simp at hx
  | c :: rest =>
    have hc : c = '/' := by simpa using hx
    subst hc
    unfold splitScheme
    split
    · rw [if_neg]
      intro hcond
      have h1 := hcond.2.1
      have hh : ('/' :: rest).takeWhile (· != ':') = '/' :: rest.takeWhile (· != ':') := by
        rw [List.takeWhile_cons, if_pos (show (('/' : Char) != ':') = true by decide)]
      rw [hh] at h1
      simp only [List.headD_cons] at h1
      exact absurd h1 (by decide)
    · rfl

/-- If a list has an element failing `q`, `dropWhile q` starts with a failing
element. -/
theorem dropWhile_head_false {q : Char → Bool} {l : Str} (h : l.dropWhile q ≠ []) :
    ∃ d rest, l.dropWhile q = d :: rest ∧ q d = false := by
  induction l with
  | nil => exact absurd rfl h
  | cons c cs ih =>
    rw [List.dropWhile_cons] at h ⊢
    by_cases hc : q c = true
    · rw [if_pos hc] at h ⊢
      exact ih h
    · rw [Bool.not_eq_true] at hc
      rw [hc]
      exact ⟨c, cs, by simp, hc⟩

/-- If `c` occurs in `p` and `p` is a leading piece of `t`, the `c`-free fronts of
`p` and `t` agree. -/
theorem takeWhile_pfx_mem {p t : Str} {c : Char} (hp : Pfx p t) (hc : c ∈ p) :
    t.takeWhile (· != c) = p.takeWhile (· != c) := by
  obtain ⟨ext, rfl⟩ := hp
  have hne : p.dropWhile (· != c) ≠ [] := by
    intro hnil
    have : p.takeWhile (· != c) = p := by
      have := List.takeWhile_append_dropWhile (· != c) p
      rw [hnil, List.append_nil] at this
      exact this
    have hq := List.mem_takeWhile_imp (this ▸ hc)
    simp at hq
  obtain ⟨d, rest, hdrop, hqd⟩ := dropWhile_head_false hne
  conv_lhs => rw [← List.takeWhile_append_dropWhile (· != c) p, hdrop]
  rw [List.append_assoc]
  rw [takeWhile_append_of_all _ (fun x hx => List.mem_takeWhile_imp hx)]
  rw [List.cons_append, List.takeWhile_cons, hqd]
  simp

/-- A scheme-less string stays scheme-less when truncated from the right. -/
theorem splitScheme_nil_pfx {t p : Str} (hpfx : Pfx p t)
    (h : splitScheme t = ([], t)) : splitScheme p = ([], p) := by
  by_cases hc : ':' ∈ p
  · have hct : ':' ∈ t := pfx_mem hpfx hc
    have heq : t.takeWhile (· != ':') = p.takeWhile (· != ':') :=
      takeWhile_pfx_mem hpfx hc
    unfold splitScheme at h ⊢
    rw [if_pos hct] at h
    rw [if_pos hc]
    split at h
    · next hcond =>
      exfalso
      simp only [Prod.mk.injEq] at h
      rw [List.map_eq_nil_iff] at h
      exact hcond.1 h.1
    · next hcond =>
      rw [if_neg]
      rw [← heq]
      exact hcond
  · unfold splitScheme
    rw [if_neg hc]

/-- The front piece of `cutFirst c` never contains `c`. -/
theorem cutFirst_fst_not_mem (c : Char) (u : Str) : c ∉ (cutFirst c u).1 := by
  unfold cutFirst
  split
  · intro hmem
    have := List.mem_takeWhile_imp hmem
    simp at this
  · next h => exact h

/-- `P x`: the path is empty or starts with a slash. -/
def PSlash (x : Str) : Prop := x = [] ∨ x.head? = some '/'

theorem PSlash_of_pfx {x y : Str} (h : Pfx x y) (hy : PSlash y) : PSlash x := by
  rcases hy with hy | hy
  · subst hy
    obtain ⟨t, ht⟩ := h
    left
    match x, ht with
    | [], _ => rfl
  · by_cases hx : x = []
    · left; exact hx
    · right; rw [pfx_head? h hx]; exact hy

theorem PSlash_rstrip {x : Str} (h : PSlash x) : PSlash (rstripSlash x) :=
  PSlash_of_pfx (pfx_rstripSlash x) h

theorem PSlash_take {x : Str} (n : Nat) (h : PSlash x) : PSlash (x.take n) :=
  PSlash_of_pfx (pfx_take n x) h

theorem PSlash_mapLower {x : Str} (h : PSlash x) : PSlash (x.map Char.toLower) := by
  rcases h with h | h
  · left; rw [h]; rfl
  · match x with
    | [] => simp at h
    | c :: rest =>
      have hc : c = '/' := by simpa using h
      subst hc
      right
      rfl

/-- If the head is `c`, `cutFirst c` leaves an empty front. -/
theorem cutFirst_fst_nil_of_head (c : Char) (x : Str) (hx : x.head? = some c) :
    (cutFirst c x).1 = [] := by
  match x with
  | [] => simp at hx
  | d :: rest =>
    have hd : d = c := by simpa using hx
    subst hd
    unfold cutFirst
    rw [if_pos (by simp)]
    simp [List.takeWhile_cons]

/-- If the head differs from `c`, `cutFirst c` keeps it in front. -/
theorem cutFirst_fst_head_ne (c : Char) (x : Str) (d : Char) (hx : x.head? = some d)
    (hdc : d ≠ c) : (cutFirst c x).1.head? = some d := by
  match x with
  | [] => simp at hx
  | e :: rest =>
    have he : e = d := by simpa using hx
    subst he
    unfold cutFirst
    split
    · rw [List.takeWhile_cons, if_pos (by simpa using hdc)]
      rfl
    · exact hx

/-- The remainder after `splitNetloc`, when the `//`-branch is taken, is empty or
starts with a delimiter. -/
theorem splitNetloc_snd_delim {x : Str} (hb : x.take 2 = str "//") :
    (splitNetloc x).2 = [] ∨
      ∃ d, (splitNetloc x).2.head? = some d ∧ notDelim d = false := by
  unfold splitNetloc
  rw [if_pos hb]
  by_cases hnil : (x.drop 2).dropWhile notDelim = []
  · left; exact hnil
  · right
    obtain ⟨d, rest, hd, hqd⟩ := dropWhile_head_false hnil
    exact ⟨d, by rw [hd]; rfl, hqd⟩

/-- The parsed path, given a delimiter-headed (or empty) post-netloc remainder, is
empty or slash-headed. -/
theorem urlparse_path_PSlash (t : Str)
    (h : (splitNetloc (splitScheme t).2).2 = [] ∨
      ∃ d, (splitNetloc (splitScheme t).2).2.head? = some d ∧ notDelim d = false) :
    PSlash (urlparse t).path := by
  have hpfx : Pfx (urlparse t).path (cutFirst '?' (cutFirst '#' (splitNetloc (splitScheme t).2).2).1).1 :=
    pfx_splitParams_fst _ _
  rcases h with h | ⟨d, hd, hqd⟩
  · refine PSlash_of_pfx (pfx_trans hpfx (pfx_trans (pfx_cutFirst_fst _ _) (pfx_cutFirst_fst _ _))) ?_
    left; exact h
  · have hd3 : d = '/' ∨ d = '?' ∨ d = '#' := by
      unfold notDelim at hqd
      simp only [Bool.not_eq_false', Bool.or_eq_true, beq_iff_eq] at hqd
      tauto
    rcases hd3 with rfl | rfl | rfl
    · refine PSlash_of_pfx (pfx_trans hpfx (pfx_trans (pfx_cutFirst_fst _ _) (pfx_cutFirst_fst _ _))) ?_
      right; exact hd
    · have h1 : (cutFirst '#' (splitNetloc (splitScheme t).2).2).1.head? = some '?' :=
        cutFirst_fst_head_ne '#' _ '?' hd (by decide)
      have h2 : (cutFirst '?' (cutFirst '#' (splitNetloc (splitScheme t).2).2).1).1 = [] :=
        cutFirst_fst_nil_of_head '?' _ h1
      refine PSlash_of_pfx hpfx ?_
      left; exact h2
    · have h1 : (cutFirst '#' (splitNetloc (splitScheme t).2).2).1 = [] :=
        cutFirst_fst_nil_of_head '#' _ hd
      refine PSlash_of_pfx (pfx_trans hpfx (pfx_cutFirst_fst _ _)) ?_
      left; exact h1

/-- The canonical path is obtained from the parsed path by stripping slashes,
optionally lower-casing, then optionally truncating. -/
theorem canonical_path_shape (u : Str) :
    ∃ q : Str,
      (q = rstripSlash (urlparse (replaceGitHttps u)).path ∨
        q = (rstripSlash (urlparse (replaceGitHttps u)).path).map Char.toLower) ∧
      ((canonical_url u).path = q ∨ (canonical_url u).path = q.take (q.length - 4)) := by
  unfold canonical_url canonical_github canonical_strip_git
  split
  · split
    · exact ⟨_, Or.inr rfl, Or.inr rfl⟩
    · exact ⟨_, Or.inr rfl, Or.inl rfl⟩
  · split
    · exact ⟨_, Or.inl rfl, Or.inr rfl⟩
    · exact ⟨_, Or.inl rfl, Or.inl rfl⟩

/-- PSlash carries from the parsed path to the canonical path. -/
theorem canonical_path_PSlash_of (u : Str)
    (h : PSlash (urlparse (replaceGitHttps u)).path) :
    PSlash (canonical_url u).path := by
  obtain ⟨q, hq, hc⟩ := canonical_path_shape u
  have hqs : PSlash q := by
    rcases hq with rfl | rfl
    · exact PSlash_rstrip h
    · exact PSlash_mapLower (PSlash_rstrip h)
  rcases hc with hc | hc <;> rw [hc]
  · exact hqs
  · exact PSlash_take _ hqs

/-- `canonical_strip_git` leaves the scheme unchanged. -/
theorem strip_git_scheme (v : ParseResult) : (canonical_strip_git v).scheme = v.scheme := by
  unfold canonical_strip_git
  split <;> rfl

/-- The path of `canonical_strip_git`, as a conditional. -/
theorem strip_git_path (v : ParseResult) :
    (canonical_strip_git v).path =
      if (str ".git").isSuffixOf v.path = true then v.path.take (v.path.length - 4)
      else v.path := by
  by_cases hc : (str ".git").isSuffixOf v.path = true
  · rw [if_pos hc]
    unfold canonical_strip_git
    rw [if_pos hc]
  · rw [if_neg hc]
    unfold canonical_strip_git
    rw [if_neg hc]

/-- The scheme of `canonical_github`, as a conditional. -/
theorem github_scheme (v : ParseResult) :
    (canonical_github v).scheme =
      if v.netloc = str "github.com" then str "https" else v.scheme := by
  by_cases hc : v.netloc = str "github.com"
  · rw [if_pos hc]
    unfold canonical_github
    rw [if_pos hc]
  · rw [if_neg hc]
    unfold canonical_github
    rw [if_neg hc]

/-- The path of `canonical_github`, as a conditional. -/
theorem github_path (v : ParseResult) :
    (canonical_github v).path =
      if v.netloc = str "github.com" then v.path.map Char.toLower else v.path := by
  by_cases hc : v.netloc = str "github.com"
  · rw [if_pos hc]
    unfold canonical_github
    rw [if_pos hc]
  · rw [if_neg hc]
    unfold canonical_github
    rw [if_neg hc]

theorem goodScheme_https : goodScheme (str "https") :=
  ⟨by decide, by decide, by decide, by decide⟩

/-- The canonical scheme is empty or a good (lower-case) scheme. -/
theorem canonical_scheme_cases (u : Str) :
    (canonical_url u).scheme = [] ∨ goodScheme (canonical_url u).scheme := by
  have hsch : (canonical_url u).scheme =
      (canonical_strip_git (canonical_github
        ⟨(urlparse (replaceGitHttps u)).scheme, (urlparse (replaceGitHttps u)).netloc,
         rstripSlash (urlparse (replaceGitHttps u)).path, none, none, none⟩)).scheme := rfl
  rw [hsch, strip_git_scheme, github_scheme]
  simp only []
  split
  · right
    exact goodScheme_https
  · have hh : (urlparse (replaceGitHttps u)).scheme =
        (splitScheme (replaceGitHttps u)).1 := rfl
    rw [hh]
    exact splitScheme_good _

/-- If the canonical netloc is the literal `github.com`, the canonical scheme is
`https`. -/
theorem canonical_github_scheme (u : Str)
    (hn : (canonical_url u).netloc = str "github.com") :
    (canonical_url u).scheme = str "https" := by
  have hpn : (urlparse (replaceGitHttps u)).netloc = str "github.com" := by
    rw [← canonical_url_netloc]
    exact hn
  have hsch : (canonical_url u).scheme =
      (canonical_strip_git (canonical_github
        ⟨(urlparse (replaceGitHttps u)).scheme, (urlparse (replaceGitHttps u)).netloc,
         rstripSlash (urlparse (replaceGitHttps u)).path, none, none, none⟩)).scheme := rfl
  rw [hsch, strip_git_scheme, github_scheme]
  simp only []
  rw [if_pos hpn]

/-- If the canonical netloc is the literal `github.com`, the canonical path is
fixed under ASCII lower-casing. -/
theorem canonical_github_lower (u : Str)
    (hn : (canonical_url u).netloc = str "github.com") :
    (canonical_url u).path.map Char.toLower = (canonical_url u).path := by
  have hpn : (urlparse (replaceGitHttps u)).netloc = str "github.com" := by
    rw [← canonical_url_netloc]
    exact hn
  have hpath : (canonical_url u).path =
      (canonical_strip_git (canonical_github
        ⟨(urlparse (replaceGitHttps u)).scheme, (urlparse (replaceGitHttps u)).netloc,
         rstripSlash (urlparse (replaceGitHttps u)).path, none, none, none⟩)).path := rfl
  rw [hpath, strip_git_path, github_path]
  simp only []
  rw [if_pos hpn]
  split
  · rw [← List.map_take, map_toLower_idem]
  · exact map_toLower_idem _

/-- `rstrip('/')` is the identity on a string not ending in `/`. -/
theorem rstrip_noop {x : Str} (h : x.getLast? ≠ some '/') : rstripSlash x = x := by
  unfold rstripSlash
  cases hx : x.reverse with
  | nil =>
    have hxe : x = [] := List.reverse_eq_nil_iff.mp hx
    simp [hxe]
  | cons c rest =>
    have hc : (c == '/') = false := by
      by_contra hcc
      rw [Bool.not_eq_false] at hcc
      have hcs : c = '/' := by simpa using hcc
      apply h
      rw [← List.head?_reverse, hx, hcs]
      rfl
    rw [List.dropWhile_cons, if_neg (by rw [hc]; decide)]
    rw [← hx, List.reverse_reverse]

/-- Every character of the canonical netloc avoids the `/?#` delimiters. -/
theorem canonical_netloc_notDelim (u : Str) :
    ∀ c ∈ (canonical_url u).netloc, notDelim c = true := by
  rw [canonical_url_netloc]
  have hn : (urlparse (replaceGitHttps u)).netloc =
      (splitNetloc (splitScheme (replaceGitHttps u)).2).1 := rfl
  rw [hn]
  unfold splitNetloc
  split
  · intro c hc
    exact List.mem_takeWhile_imp hc
  · intro c hc
    simp at hc

/-- `splitNetloc` recovers a delimiter-free netloc and a slash-headed (or empty)
remainder from their rendered concatenation. -/
theorem splitNetloc_recover (n p : Str) (hn : ∀ c ∈ n, notDelim c = true)
    (hp : PSlash p) : splitNetloc ('/' :: '/' :: (n ++ p)) = (n, p) := by
  unfold splitNetloc
  rw [if_pos (show ('/' :: '/' :: (n ++ p)).take 2 = str "//" from rfl)]
  have hdrop : ('/' :: '/' :: (n ++ p)).drop 2 = n ++ p := rfl
  rw [hdrop, takeWhile_append_of_all _ hn, dropWhile_append_of_all _ hn]
  rcases hp with hp | hp
  · rw [hp]
    simp
  · cases p with
    | nil => simp at hp
    | cons c rest =>
      have hc : c = '/' := by simpa using hp
      subst hc
      simp [List.takeWhile_cons, List.dropWhile_cons, notDelim]

/-- A `//`-headed remainder after the scheme yields a slash-headed (or empty)
canonical path. -/
theorem canonical_path_slash_of_take2 (u : Str)
    (hb : (splitScheme (replaceGitHttps u)).2.take 2 = str "//") :
    PSlash (canonical_url u).path := by
  apply canonical_path_PSlash_of
  apply urlparse_path_PSlash
  exact splitNetloc_snd_delim hb

/-- A non-empty canonical netloc forces a slash-headed (or empty) canonical
path. -/
theorem canonical_path_slash (u : Str) (hn : (canonical_url u).netloc ≠ []) :
    PSlash (canonical_url u).path := by
  have hpn : (urlparse (replaceGitHttps u)).netloc ≠ [] := by
    rw [← canonical_url_netloc]
    exact hn
  have hnet : (urlparse (replaceGitHttps u)).netloc =
      (splitNetloc (splitScheme (replaceGitHttps u)).2).1 := rfl
  rw [hnet] at hpn
  by_cases hb : (splitScheme (replaceGitHttps u)).2.take 2 = str "//"
  · exact canonical_path_slash_of_take2 u hb
  · exfalso
    apply hpn
    unfold splitNetloc
    rw [if_neg hb]

/-- Leading pieces keep non-membership. -/
theorem pfx_not_mem {a b : Str} {c : Char} (h : Pfx a b) (hb : c ∉ b) : c ∉ a :=
  fun hc => hb (pfx_mem h hc)

/-- ASCII lower-casing cannot introduce a non-letter character. -/
theorem not_mem_toLower_map {d : Char} (hd : ¬ (97 ≤ d.toNat ∧ d.toNat ≤ 122))
    (hd2 : ¬ (65 ≤ d.toNat ∧ d.toNat ≤ 90)) {l : Str} (h : d ∉ l) :
    d ∉ l.map Char.toLower := by
  intro hm
  rcases List.mem_map.mp hm with ⟨c, hc, hcd⟩
  have hcd2 : c = d := (toLower_eq_iff c d hd hd2).mp hcd
  rw [hcd2] at hc
  exact h hc

/-- The parsed path, spelled out. -/
theorem urlparse_path_eq (t : Str) :
    (urlparse t).path =
      (splitParams (splitScheme t).1
        (cutFirst '?' (cutFirst '#' (splitNetloc (splitScheme t).2).2).1).1).1 := rfl

/-- The parsed path never contains `#`. -/
theorem urlparse_path_not_hash (t : Str) : '#' ∉ (urlparse t).path := by
  rw [urlparse_path_eq]
  refine pfx_not_mem (pfx_trans (pfx_splitParams_fst _ _) (pfx_cutFirst_fst _ _)) ?_
  exact cutFirst_fst_not_mem '#' _

/-- The parsed path never contains `?`. -/
theorem urlparse_path_not_question (t : Str) : '?' ∉ (urlparse t).path := by
  rw [urlparse_path_eq]
  exact pfx_not_mem (pfx_splitParams_fst _ _) (cutFirst_fst_not_mem '?' _)

/-- Non-letter characters missing from the parsed path are missing from the
canonical path. -/
theorem canonical_path_not_mem_of (u : Str) (d : Char)
    (hd : ¬ (97 ≤ d.toNat ∧ d.toNat ≤ 122)) (hd2 : ¬ (65 ≤ d.toNat ∧ d.toNat ≤ 90))
    (hpar : d ∉ (urlparse (replaceGitHttps u)).path) : d ∉ (canonical_url u).path := by
  obtain ⟨q, hq, hc⟩ := canonical_path_shape u
  have hq2 : d ∉ q := by
    rcases hq with rfl | rfl
    · exact pfx_not_mem (pfx_rstripSlash _) hpar
    · exact not_mem_toLower_map hd hd2 (pfx_not_mem (pfx_rstripSlash _) hpar)
  rcases hc with hc | hc <;> rw [hc]
  · exact hq2
  · exact pfx_not_mem (pfx_take _ _) hq2

/-- The canonical path never contains `#`. -/
theorem canonical_path_not_hash (u : Str) : '#' ∉ (canonical_url u).path :=
  canonical_path_not_mem_of u '#' (by decide) (by decide) (urlparse_path_not_hash _)

/-- The canonical path never contains `?`. -/
theorem canonical_path_not_question (u : Str) : '?' ∉ (canonical_url u).path :=
  canonical_path_not_mem_of u '?' (by decide) (by decide) (urlparse_path_not_question _)

/-- A slash-headed (or empty) string carries no scheme. -/
theorem splitScheme_PSlash {p : Str} (hp : PSlash p) : splitScheme p = ([], p) := by
  rcases hp with hp | hp
  · rw [hp]
    decide
  · exact splitScheme_of_head_slash p hp

/-- A one-character front determines the head. -/
theorem take_one_head {l : Str} {c : Char} (h : l.take 1 = [c]) : l.head? = some c := by
  cases l with
  | nil => simp at h
  | cons d rest =>
    have hd : d = c := by
      have h2 := congrArg List.head? h
      simpa using h2
    subst hd
    rfl

/-- The slash-insertion step of `urlunsplit` is the identity on slash-headed
(or empty) paths. -/
theorem PSlash_path_if {p : Str} (hp : PSlash p) :
    (if p ≠ [] ∧ p.take 1 ≠ str "/" then '/' :: p else p) = p := by
  rcases hp with hp | hp
  · rw [if_neg]
    intro hcon
    exact hcon.1 hp
  · rw [if_neg]
    intro hcon
    apply hcon.2
    cases p with
    | nil => simp at hp
    | cons c rest =>
      have hc : c = '/' := by simpa using hp
      subst hc
      rfl

/-- Re-parsing the rendered form of a parse result recovers its components,
under the stability side conditions on those components. -/
theorem urlparse_geturl (r : ParseResult)
    (hp : r.params = none) (hq : r.query = none) (hf : r.fragment = none)
    (hsch : r.scheme = [] ∨ goodScheme r.scheme)
    (hnet : ∀ c ∈ r.netloc, notDelim c = true)
    (hps : r.netloc ≠ [] → PSlash r.path)
    (hhash : '#' ∉ r.path) (hques : '?' ∉ r.path)
    (hparams : splitParams r.scheme r.path = (r.path, []))
    (h5 : ¬ (r.netloc = [] ∧ r.path.take 2 = str "//"))
    (h6 : ¬ (r.netloc = [] ∧ r.scheme ≠ [] ∧ r.scheme ∈ uses_netloc ∧ r.path ≠ []
      ∧ r.path.take 1 ≠ str "/"))
    (hfree : r.netloc = [] ∧ r.scheme = [] → splitScheme r.path = ([], r.path)) :
    urlparse (geturl r) = ⟨r.scheme, r.netloc, r.path, some [], some [], some []⟩ := by
  have e3 : cutFirst '#' r.path = (r.path, []) := cutFirst_not_mem hhash
  have e4 : cutFirst '?' r.path = (r.path, []) := cutFirst_not_mem hques
  rw [geturl_eq r hp hq hf]
  by_cases hs : r.scheme = []
  · rw [if_neg (by simp [hs])]
    have e5 : splitParams [] r.path = (r.path, []) := by
      have e5a := hparams
      rw [hs] at e5a
      exact e5a
    by_cases hn : r.netloc = []
    · rw [if_neg (by simp [hs, hn])]
      have e1 : splitScheme r.path = ([], r.path) := hfree ⟨hn, hs⟩
      have e2 : splitNetloc r.path = ([], r.path) := by
        unfold splitNetloc
        rw [if_neg (fun hb => h5 ⟨hn, hb⟩)]
      rw [hs, hn]
      unfold urlparse
      rw [e1]
      simp only []
      rw [e2]
      simp only []
      rw [e3]
      simp only []
      rw [e4]
      simp only []
      rw [e5]
    · rw [if_pos (Or.inl hn)]
      have hpsl := hps hn
      rw [PSlash_path_if hpsl]
      have e1 : splitScheme ('/' :: '/' :: (r.netloc ++ r.path)) =
          ([], '/' :: '/' :: (r.netloc ++ r.path)) :=
        splitScheme_of_head_slash _ rfl
      have e2 : splitNetloc ('/' :: '/' :: (r.netloc ++ r.path)) = (r.netloc, r.path) :=
        splitNetloc_recover _ _ hnet hpsl
      rw [hs]
      unfold urlparse
      rw [e1]
      simp only []
      rw [e2]
      simp only []
      rw [e3]
      simp only []
      rw [e4]
      simp only []
      rw [e5]
  · have hg : goodScheme r.scheme := hsch.resolve_left hs
    rw [if_pos hs]
    by_cases hcond : r.netloc ≠ [] ∨ (r.scheme ≠ [] ∧ r.scheme ∈ uses_netloc
        ∧ r.path.take 2 ≠ str "//")
    · rw [if_pos hcond]
      have hpsl : PSlash r.path := by
        by_cases hn : r.netloc = []
        · rcases hcond with hn2 | hc2
          · exact absurd hn hn2
          · by_cases hpe : r.path = []
            · left
              exact hpe
            · by_cases ht1 : r.path.take 1 = str "/"
              · right
                exact take_one_head ht1
              · exact absurd ⟨hn, hs, hc2.2.1, hpe, ht1⟩ h6
        · exact hps hn
      rw [PSlash_path_if hpsl]
      have e1 : splitScheme (r.scheme ++ ':' :: ('/' :: '/' :: (r.netloc ++ r.path))) =
          (r.scheme, '/' :: '/' :: (r.netloc ++ r.path)) :=
        splitScheme_good_colon _ _ hg
      have e2 : splitNetloc ('/' :: '/' :: (r.netloc ++ r.path)) = (r.netloc, r.path) :=
        splitNetloc_recover _ _ hnet hpsl
      unfold urlparse
      rw [e1]
      simp only []
      rw [e2]
      simp only []
      rw [e3]
      simp only []
      rw [e4]
      simp only []
      rw [hparams]
    · rw [if_neg hcond]
      have hn : r.netloc = [] := by
        by_contra hnn
        exact hcond (Or.inl hnn)
      have e1 : splitScheme (r.scheme ++ ':' :: r.path) = (r.scheme, r.path) :=
        splitScheme_good_colon _ _ hg
      have e2 : splitNetloc r.path = ([], r.path) := by
        unfold splitNetloc
        rw [if_neg (fun hb => h5 ⟨hn, hb⟩)]
      rw [hn]
      unfold urlparse
      rw [e1]
      simp only []
      rw [e2]
      simp only []
      rw [e3]
      simp only []
      rw [e4]
      simp only []
      rw [hparams]

/-- A parse result with `None` options is its own component triple. -/
theorem parse_result_eta (v : ParseResult) (hp : v.params = none) (hq : v.query = none)
    (hf : v.fragment = none) : v = ⟨v.scheme, v.netloc, v.path, none, none, none⟩ := by
  cases v with
  | mk s n p pa qu fr =>
    have hp2 : pa = none := hp
    have hq2 : qu = none := hq
    have hf2 : fr = none := hf
    rw [hp2, hq2, hf2]

/-- Canonicalising a string whose parse is already in normal form returns the
parsed components. -/
theorem canonical_finish (w : Str) (s n p : Str)
    (hrep : replaceGitHttps w = w)
    (hu : urlparse w = ⟨s, n, p, some [], some [], some []⟩)
    (hrs : rstripSlash p = p)
    (hgh : n = str "github.com" → s = str "https" ∧ p.map Char.toLower = p)
    (hgit : (str ".git").isSuffixOf p = false) :
    canonical_url w = ⟨s, n, p, none, none, none⟩ := by
  have hcan : canonical_url w = canonical_strip_git (canonical_github
      ⟨(urlparse (replaceGitHttps w)).scheme, (urlparse (replaceGitHttps w)).netloc,
       rstripSlash (urlparse (replaceGitHttps w)).path, none, none, none⟩) := rfl
  rw [hcan, hrep, hu]
  show canonical_strip_git (canonical_github ⟨s, n, rstripSlash p, none, none, none⟩) =
    ⟨s, n, p, none, none, none⟩
  rw [hrs]
  by_cases hn : n = str "github.com"
  · obtain ⟨hsch, hlow⟩ := hgh hn
    have hg : canonical_github (⟨s, n, p, none, none, none⟩ : ParseResult) =
        ⟨str "https", n, p.map Char.toLower, none, none, none⟩ := by
      unfold canonical_github
      simp only []
      rw [if_pos hn]
    rw [hg, hlow]
    unfold canonical_strip_git
    simp only []
    rw [hgit, if_neg (by decide)]
    rw [hsch]
  · have hg : canonical_github (⟨s, n, p, none, none, none⟩ : ParseResult) =
        ⟨s, n, p, none, none, none⟩ := by
      unfold canonical_github
      simp only []
      rw [if_neg hn]
    rw [hg]
    unfold canonical_strip_git
    simp only []
    rw [hgit, if_neg (by decide)]

/-- C2 counterexample: canonicalisation is not idempotent.  A path ending in
`.git.git` loses one `.git` suffix per round, so re-canonicalising the string
form of the canonical result changes it. -/
theorem C2_not_idempotent_counterexample :
    canonical_url (geturl (canonical_url (str "https://example.com/r.git.git"))) ≠
      canonical_url (str "https://example.com/r.git.git") := by
  decide

/-- C2 (amended): canonicalisation is stable on results that are fixed points of
its individual steps — re-canonicalising the rendered string form of
`canonical_url u` returns `canonical_url u` whenever the canonical path does not
end in `.git` (h1) or `/` (h2), re-parsing splits no parameters off the path
(h3), the rendered form contains no `git+https://` occurrence (h4), and the
degenerate netloc-less shapes that `urlunsplit` re-reads differently — a path
starting with `//` (h5) or a relative path under a netloc-using scheme (h6) —
are excluded. -/
theorem C2_canonical_url_stable (u : Str)
    (h1 : (str ".git").isSuffixOf (canonical_url u).path = false)
    (h2 : (canonical_url u).path.getLast? ≠ some '/')
    (h3 : splitParams (canonical_url u).scheme (canonical_url u).path =
      ((canonical_url u).path, []))
    (h4 : replaceGitHttps (geturl (canonical_url u)) = geturl (canonical_url u))
    (h5 : ¬ ((canonical_url u).netloc = [] ∧ (canonical_url u).path.take 2 = str "//"))
    (h6 : ¬ ((canonical_url u).netloc = [] ∧ (canonical_url u).scheme ≠ []
      ∧ (canonical_url u).scheme ∈ uses_netloc ∧ (canonical_url u).path ≠ []
      ∧ (canonical_url u).path.take 1 ≠ str "/")) :
    canonical_url (geturl (canonical_url u)) = canonical_url u := by
  have hopts := canonical_url_opts u
  have hfree : (canonical_url u).netloc = [] ∧ (canonical_url u).scheme = [] →
      splitScheme (canonical_url u).path = ([], (canonical_url u).path) := by
    rintro ⟨hn, hsc⟩
    have hts : splitScheme (replaceGitHttps u) = ([], replaceGitHttps u) :=
      splitScheme_of_fst_nil (canonical_url_scheme_nil hsc)
    by_cases hb : (replaceGitHttps u).take 2 = str "//"
    · apply splitScheme_PSlash
      apply canonical_path_slash_of_take2
      rw [hts]
      exact hb
    · exact splitScheme_nil_pfx (canonical_url_path_pfx hsc hn hb) hts
  have hup : urlparse (geturl (canonical_url u)) =
      ⟨(canonical_url u).scheme, (canonical_url u).netloc, (canonical_url u).path,
        some [], some [], some []⟩ :=
    urlparse_geturl _ hopts.1 hopts.2.1 hopts.2.2 (canonical_scheme_cases u)
      (canonical_netloc_notDelim u) (canonical_path_slash u)
      (canonical_path_not_hash u) (canonical_path_not_question u) h3 h5 h6 hfree
  have hfin := canonical_finish (geturl (canonical_url u)) _ _ _ h4 hup (rstrip_noop h2)
    (fun hn => ⟨canonical_github_scheme u hn, canonical_github_lower u hn⟩) h1
  rw [hfin]
  exact (parse_result_eta _ hopts.1 hopts.2.1 hopts.2.2).symm

/-- C2 witness: a concrete source URL whose canonical form meets the stability
conditions. -/
theorem C2_canonical_url_witness :
    canonical_url (geturl (canonical_url (str "git+https://github.com/Org/Repo.git"))) =
      canonical_url (str "git+https://github.com/Org/Repo.git") :=
  C2_canonical_url_stable _ (by decide) (by decide) (by decide) (by decide)
    (by decide) (by decide)
